import Mathlib

/-!
Verification of the pizza-annotation data-preparation utilities:
a shallow embedding of `clean_json_image_paths.py` (Path Normalizer),
`find_and_copy_images.py` (Image Locator/Copier) and the extraction
logic of `streamlit_app.py` (Annotation Extractor), together with
theorems settling the specification's claims about them.

JSON values are modelled by an inductive type; Python's dynamic
failures (TypeError, KeyError, AttributeError) are modelled with
`Except`.  Python strings are Lean `String`s, and the string
operations the scripts use (`split`, `in`, `lower`, `endswith`,
`join`) are embedded below with Python's semantics.
-/

/-- A JSON value, as produced by Python's `json.loads`. -/
inductive Json where
  | null : Json
  | bool (b : Bool) : Json
  | num (n : Int) : Json
  | str (s : String) : Json
  | arr (xs : List Json) : Json
  | obj (kvs : List (String × Json)) : Json

/-- The Python exceptions the embedded code can raise. -/
inductive PyErr where
  | typeError : PyErr
  | keyError : PyErr
  | attrError : PyErr

/-- First binding of a key in an object's association list
(Python dicts from `json.loads` have unique keys). -/
def getKey (kvs : List (String × Json)) (k : String) : Option Json :=
  match kvs with
  | [] => none
  | (k', v) :: rest => if k' = k then some v else getKey rest k

/-- Python `k in d` for a dict. -/
def hasKey (kvs : List (String × Json)) (k : String) : Bool :=
  (getKey kvs k).isSome

/-- Python `d.get(k, default)`. -/
def getKeyD (kvs : List (String × Json)) (k : String) (d : Json) : Json :=
  match getKey kvs k with
  | some v => v
  | none => d

/-- Python truthiness of a JSON-shaped value. -/
def pyTruthy : Json → Bool
  | Json.null => false
  | Json.bool b => b
  | Json.num n => n != 0
  | Json.str s => !s.isEmpty
  | Json.arr xs => !xs.isEmpty
  | Json.obj kvs => !kvs.isEmpty

/-- Python `x == "lit"` where `lit` is a string literal: true exactly
for an equal string; values of other types compare unequal. -/
def isStrEq (j : Json) (s : String) : Bool :=
  match j with
  | Json.str t => t == s
  | _ => false

/-- Does the first character list start with the second? -/
def startsL (l p : List Char) : Bool :=
  match p, l with
  | [], _ => true
  | _ :: _, [] => false
  | a :: p', b :: l' => a = b && startsL l' p'

/-- Does the first character list contain the second as a contiguous
run (Python `p in l` on strings)? -/
def containsL (l p : List Char) : Bool :=
  startsL l p ||
    match l with
    | [] => false
    | _ :: l' => containsL l' p

/-- Does the first character list end with the second? -/
def endsL (l p : List Char) : Bool :=
  startsL l.reverse p.reverse

/-- Python substring test `needle in haystack` on strings. -/
def strIn (needle haystack : String) : Bool :=
  containsL haystack.data needle.data

/-- Python `needle in container` where `needle` is a string:
key membership for dicts, `==`-membership for lists, substring test
for strings, and a `TypeError` otherwise. -/
def pyContainsStr (needle : String) (container : Json) : Except PyErr Bool :=
  match container with
  | Json.obj kvs => .ok (hasKey kvs needle)
  | Json.arr xs => .ok (xs.any (fun x => isStrEq x needle))
  | Json.str s => .ok (strIn needle s)
  | _ => .error PyErr.typeError

/-- Python `container[key]` with a string key: dict lookup
(`KeyError` when absent), `TypeError` on any other type. -/
def pySubscriptStr (container : Json) (k : String) : Except PyErr Json :=
  match container with
  | Json.obj kvs =>
    match getKey kvs k with
    | some v => .ok v
    | none => .error PyErr.keyError
  | _ => .error PyErr.typeError

/-- Python iteration `for x in j`: list elements, dict keys,
characters of a string (as one-character strings); `TypeError`
otherwise. -/
def pyElems (j : Json) : Except PyErr (List Json) :=
  match j with
  | Json.arr xs => .ok xs
  | Json.obj kvs => .ok (kvs.map (fun kv => Json.str kv.fst))
  | Json.str s => .ok (s.data.map (fun c => Json.str (String.singleton c)))
  | _ => .error PyErr.typeError

/-- Collect a list of JSON values as strings, `TypeError` when one
is not a string (as Python `str.join` does). -/
def strList : List Json → Except PyErr (List String)
  | [] => .ok []
  | Json.str s :: rest => do
      let ss ← strList rest
      pure (s :: ss)
  | _ :: _ => .error PyErr.typeError

/-- Python `sep.join(j)`: every element must be a string
(`TypeError` otherwise); a dict joins its keys, a string its
characters. -/
def pyJoin (sep : String) (j : Json) : Except PyErr String :=
  match j with
  | Json.str s => .ok (String.intercalate sep (s.data.map String.singleton))
  | Json.arr xs => do
      let ss ← strList xs
      pure (String.intercalate sep ss)
  | Json.obj kvs => .ok (String.intercalate sep (kvs.map Prod.fst))
  | _ => .error PyErr.typeError

/-- Python `str(j)`, to the extent the embedded code observes it
(it is only ever interpolated into a URL and displayed). -/
def pyStr : Json → String
  | Json.null => "None"
  | Json.bool true => "True"
  | Json.bool false => "False"
  | Json.num n => toString n
  | Json.str s => s
  | Json.arr _ => "[...]"
  | Json.obj _ => "{...}"

/-- Python `s.lower()` (ASCII case folding suffices here). -/
def lowerStr (s : String) : String :=
  ⟨s.data.map Char.toLower⟩

/-- Python `s.endswith(suf)`. -/
def endsWithStr (s suf : String) : Bool :=
  endsL s.data suf.data

/-- Python `s.split(c)` for a one-character separator, on the
character list: all pieces, empty pieces kept. -/
def splitOnChar (c : Char) : List Char → List (List Char)
  | [] => [[]]
  | x :: xs =>
    let r := splitOnChar c xs
    if x = c then [] :: r
    else
      match r with
      | [] => [[x]]
      | y :: ys => (x :: y) :: ys

/-- Inverse of `splitOnChar`: rejoin pieces with the separator. -/
def joinWith (c : Char) : List (List Char) → List Char
  | [] => []
  | [p] => p
  | p :: ps => p ++ c :: joinWith c ps

/-- Python `s.split(c)` on strings. -/
def pySplit (s : String) (c : Char) : List String :=
  (splitOnChar c s.data).map (fun l => ⟨l⟩)

/-! ## Image Locator/Copier: `find_and_copy_images.py` -/

/-- `parts[-1].split('?')[0]` applied to `image_url.split('/')`
(lines 27–31 of `find_and_copy_images.py`): final path segment with
the query suffix removed. -/
def strippedName (image_url : String) : String :=
  (pySplit ((pySplit image_url '/').getLastD "") '?').headD ""

/-- The extension test of line 32:
`any(ext in filename.lower() for ext in ['.jpg', '.jpeg', '.png'])` —
substring containment, not a suffix test. -/
def containsExtCheck (filename : String) : Bool :=
  [".jpg", ".jpeg", ".png"].any (fun ext => strIn ext (lowerStr filename))

/-- Per-record step of `extract_image_names_from_json` (lines 23–33):
the name the record contributes, if any; errors model the `TypeError`
and `AttributeError` the Python code would raise on that record. -/
def itemName (item : Json) : Except PyErr (Option String) :=
  match item with
  | Json.obj kvs =>
    if hasKey kvs "data" then do
      let hc ← pyContainsStr "image" (getKeyD kvs "data" (Json.obj []))
      if hc then do
        let v ← pySubscriptStr (getKeyD kvs "data" (Json.obj [])) "image"
        match v with
        | Json.str image_url =>
          let filename := strippedName image_url
          if containsExtCheck filename then pure (some filename) else pure none
        | _ => .error PyErr.attrError
      else pure none
    else pure none
  | _ => pure none

/-- The name-extraction loop of `extract_image_names_from_json` over
an already-parsed top-level list, collecting names in record order. -/
def extract_image_names (data : List Json) : Except PyErr (List String) :=
  match data with
  | [] => .ok []
  | item :: rest => do
      let r ← itemName item
      let ns ← extract_image_names rest
      pure (r.toList ++ ns)

/-- Line 61 of `find_and_copy_images.py`:
`file.lower().endswith(('.jpg', '.jpeg', '.png'))`. -/
def isImageFile (file : String) : Bool :=
  [".jpg", ".jpeg", ".png"].any (fun ext => endsWithStr (lowerStr file) ext)

/-- The inner loop of lines 63–75: scan target names in order, stop at
the first whose text occurs inside the file's base name. -/
def firstMatch (image_names : List String) (file : String) : Option String :=
  match image_names with
  | [] => none
  | n :: rest => if strIn n file then some n else firstMatch rest file

/-- Python `set.add` on the found-set (kept as an insertion-ordered
list with set semantics). -/
def addFound (n : String) (l : List String) : List String :=
  if n ∈ l then l else l ++ [n]

/-- State of the walk: the found-set and, in order, every copy that
was attempted (file base name, matched target name). -/
structure WalkState where
  found : List String
  tried : List (String × String)

/-- Per-file body of the walk (lines 59–75).  `copyOk` is the
environment: whether `shutil.copy2` succeeds for this file.  On
failure the exception is caught, the name is not recorded as found,
and the `break` still ends the scan for this file. -/
def processFile (copyOk : String → Bool) (image_names : List String)
    (st : WalkState) (file : String) : WalkState :=
  if isImageFile file then
    match firstMatch image_names file with
    | some n =>
      { found := if copyOk file then addFound n st.found else st.found
        tried := st.tried ++ [(file, n)] }
    | none => st
  else st

/-- The whole walk of `recursive_search_and_copy` over the files the
filesystem enumerates, in walk order. -/
def recursive_search_and_copy (copyOk : String → Bool)
    (image_names : List String) (st : WalkState) (files : List String) : WalkState :=
  match files with
  | [] => st
  | f :: fs => recursive_search_and_copy copyOk image_names
      (processFile copyOk image_names st f) fs

/-- Line 78: `not_found = set(image_names) - found_images`. -/
def notFoundOf (image_names : List String) (st : WalkState) : List String :=
  image_names.filter (fun n => n ∉ st.found)

/-! ## Path Normalizer: `clean_json_image_paths.py` -/

/-- Lines 31–37 of `clean_json_image_paths.py` on a string image
value: if it contains `'/'`, keep the last `'/'`-segment and drop
everything from the first `'?'` of that segment. -/
def cleanImageStr (image_url : String) : String :=
  if strIn "/" image_url then
    if strIn "?" ((pySplit image_url '/').getLastD "") then
      (pySplit ((pySplit image_url '/').getLastD "") '?').headD ""
    else (pySplit image_url '/').getLastD ""
  else image_url

/-- Python dict assignment `d[k] = v`: replace the (unique) binding. -/
def setKey (kvs : List (String × Json)) (k : String) (v : Json) :
    List (String × Json) :=
  match kvs with
  | [] => [(k, v)]
  | (k', v') :: rest =>
    if k' = k then (k, v) :: rest else (k', v') :: setKey rest k v

/-- Per-record body of the structured loop (lines 26–41): the possibly
rewritten record and whether it was counted as modified.  Errors model
the `TypeError`s Python raises there ( `'image' in item.get('data')`
and `'/' in image_url` on non-container values) and the
`AttributeError` of `.split` on a non-string. -/
def cleanItem (item : Json) : Except PyErr (Json × Bool) :=
  match item with
  | Json.obj kvs =>
    if hasKey kvs "data" then do
      let hc ← pyContainsStr "image" (getKeyD kvs "data" (Json.obj []))
      if hc then do
        let v ← pySubscriptStr (getKeyD kvs "data" (Json.obj [])) "image"
        let hs ← pyContainsStr "/" v
        if hs then
          match v with
          | Json.str image_url =>
            match getKeyD kvs "data" (Json.obj []) with
            | Json.obj dkvs =>
              pure (Json.obj (setKey kvs "data"
                (Json.obj (setKey dkvs "image"
                  (Json.str (cleanImageStr image_url))))), true)
            | _ => .error PyErr.typeError
          | _ => .error PyErr.attrError
        else pure (item, false)
      else pure (item, false)
    else pure (item, false)
  | _ => pure (item, false)

/-- The structured loop over the top-level list: rewritten records in
order and the modification count. -/
def cleanData (data : List Json) : Except PyErr (List Json × Nat) :=
  match data with
  | [] => .ok ([], 0)
  | item :: rest => do
      let (item', b) ← cleanItem item
      let (rest', k) ← cleanData rest
      pure (item' :: rest', (if b then 1 else 0) + k)

/-- Outcome of one run of `clean_image_paths_in_json`:
the structured path (re-serialized document and modification count),
the regex fallback on the raw bytes, or an uncaught exception. -/
inductive CleanOutcome where
  | structured (doc : Json) (count : Nat) : CleanOutcome
  | fallback : CleanOutcome
  | crash (e : PyErr) : CleanOutcome

/-- The whole of `clean_image_paths_in_json` after reading the file:
`none` models a `json.JSONDecodeError` from `json.loads`.  The
`except (json.JSONDecodeError, TypeError)` clause routes a parse
failure, a non-iterable top level (`len`/`enumerate` raise
`TypeError`) and any `TypeError` from the loop to the regex fallback;
iterating a dict (its keys) or a string (its characters) succeeds and
modifies nothing, and an `AttributeError` escapes uncaught. -/
def clean_image_paths_in_json (parsed : Option Json) : CleanOutcome :=
  match parsed with
  | none => .fallback
  | some v =>
    match v with
    | Json.null => .fallback
    | Json.bool _ => .fallback
    | Json.num _ => .fallback
    | Json.str s => .structured (Json.str s) 0
    | Json.obj kvs => .structured (Json.obj kvs) 0
    | Json.arr xs =>
      match cleanData xs with
      | .ok (out, k) => .structured (Json.arr out) k
      | .error PyErr.typeError => .fallback
      | .error e => .crash e

/-! ## Annotation Extractor: `streamlit_app.py`, `extract_annotation_data` -/

/-- Base URL prefixed onto the stored bare filename (the module-level
configuration constant of `streamlit_app.py`). -/
def imgBase : String :=
  "https://graffity-public-assets.s3.ap-southeast-1.amazonaws.com/ronn-temp/label_images/"

/-- The four label fields while a record is being processed
(lines 54–58).  `comments` is assigned `result['value']['text']`
verbatim, so it can hold any JSON value; the categorical fields are
always strings (`", ".join(...)` results). -/
structure Fields where
  image_quality : String
  pizza_quality : String
  pizza_quality_reason : String
  comments : Json

/-- Lines 54–58: the sentinel defaults. -/
def initFields : Fields :=
  { image_quality := "N/A", pizza_quality := "N/A",
    pizza_quality_reason := "N/A", comments := Json.str "N/A" }

/-- One flattened output record (lines 85–92). -/
structure FlatRecord where
  image : String
  image_filename : Json
  image_quality : String
  pizza_quality : String
  pizza_quality_reason : String
  comments : Json

/-- The common `from_name == tag and 'value' in result and
'choices' in result['value']` branch body: join the choices with
`", "`.  Returns `none` when the branch guard fails without error. -/
def choicesOf (rkvs : List (String × Json)) : Except PyErr (Option String) :=
  match getKey rkvs "value" with
  | some v => do
      let hc ← pyContainsStr "choices" v
      if hc then do
        let cs ← pySubscriptStr v "choices"
        let s ← pyJoin ", " cs
        pure (some s)
      else pure none
  | none => pure none

/-- One `result` entry (lines 64–81): dispatch on `from_name` and
overwrite the matching field.  A non-dict entry raises
`AttributeError` at `result.get`. -/
def procRes (fs : Fields) (result : Json) : Except PyErr Fields :=
  match result with
  | Json.obj rkvs =>
    let from_name := getKeyD rkvs "from_name" (Json.str "")
    if isStrEq from_name "image_quality" then do
      let c ← choicesOf rkvs
      pure (match c with
            | some s => { fs with image_quality := s }
            | none => fs)
    else if isStrEq from_name "pizza_quality" then do
      let c ← choicesOf rkvs
      pure (match c with
            | some s => { fs with pizza_quality := s }
            | none => fs)
    else if isStrEq from_name "pizza_quality_reason" then do
      let c ← choicesOf rkvs
      pure (match c with
            | some s => { fs with pizza_quality_reason := s }
            | none => fs)
    else if isStrEq from_name "comments" then
      match getKey rkvs "value" with
      | some v => do
          let ht ← pyContainsStr "text" v
          if ht then do
            let t ← pySubscriptStr v "text"
            pure { fs with comments := t }
          else pure fs
      | none => pure fs
    else pure fs
  | _ => .error PyErr.attrError

/-- The inner `for result in annotation['result']` loop. -/
def runResults (fs : Fields) (results : List Json) : Except PyErr Fields :=
  match results with
  | [] => .ok fs
  | r :: rs => do
      let fs' ← procRes fs r
      runResults fs' rs

/-- One annotation (lines 62–64): `if 'result' in annotation:` then
iterate `annotation['result']`. -/
def procAnn (fs : Fields) (ann : Json) : Except PyErr Fields :=
  do
    let hr ← pyContainsStr "result" ann
    if hr then do
      let rv ← pySubscriptStr ann "result"
      let rs ← pyElems rv
      runResults fs rs
    else pure fs

/-- The outer `for annotation in annotations` loop. -/
def runAnns (fs : Fields) (anns : List Json) : Except PyErr Fields :=
  match anns with
  | [] => .ok fs
  | a :: rest => do
      let fs' ← procAnn fs a
      runAnns fs' rest

/-- Lines 52–81: defaults, then—only when `annotations` is truthy—walk
it (a `TypeError` if it is truthy but not iterable). -/
def procAnns (anns : Json) : Except PyErr Fields :=
  if pyTruthy anns then do
    let l ← pyElems anns
    runAnns initFields l
  else pure initFields

/-- One record of `extract_annotation_data` (lines 37–92): `none` when
the record is skipped, `some` the flat record it contributes. -/
def processItem (item : Json) : Except PyErr (Option FlatRecord) :=
  match item with
  | Json.obj kvs =>
    match getKey kvs "data", getKey kvs "annotations" with
    | some dataVal, some anns => do
        let hi ← pyContainsStr "image" dataVal
        let imgOpt ← if hi then do
            let v ← pySubscriptStr dataVal "image"
            pure (some v)
          else pure (none : Option Json)
        let fs ← procAnns anns
        match imgOpt with
        | some v =>
          pure (some { image := imgBase ++ pyStr v, image_filename := v,
                       image_quality := fs.image_quality,
                       pizza_quality := fs.pizza_quality,
                       pizza_quality_reason := fs.pizza_quality_reason,
                       comments := fs.comments })
        | none => pure none
    | _, _ => pure none
  | _ => pure none

/-- `extract_annotation_data` over the top-level list. -/
def extract_annotation_data (data : List Json) : Except PyErr (List FlatRecord) :=
  match data with
  | [] => .ok []
  | item :: rest => do
      let r ← processItem item
      let rs ← extract_annotation_data rest
      pure (r.toList ++ rs)

/-! ## General lemmas -/

@[simp] theorem exc_ok_bind {α β ε : Type} (a : α) (f : α → Except ε β) :
    (Except.ok a >>= f) = f a := rfl

@[simp] theorem exc_error_bind {α β ε : Type} (e : ε) (f : α → Except ε β) :
    ((Except.error e : Except ε α) >>= f) = Except.error e := rfl

@[simp] theorem exc_pure_eq_ok {α ε : Type} (a : α) :
    (pure a : Except ε α) = Except.ok a := rfl

theorem splitOnChar_ne_nil (c : Char) (l : List Char) : splitOnChar c l ≠ [] := by
  cases l with
  | nil => simp [splitOnChar]
  | cons x xs =>
    simp only [splitOnChar]
    split
    · simp
    · split <;> simp

theorem not_mem_of_mem_splitOnChar (c : Char) (l : List Char) :
    ∀ p ∈ splitOnChar c l, c ∉ p := by
  induction l with
  | nil => intro p hp; simp [splitOnChar] at hp; simp [hp]
  | cons x xs ih =>
    intro p hp
    simp only [splitOnChar] at hp
    by_cases hx : x = c
    · simp [hx] at hp
      rcases hp with h | h
      · simp [h]
      · exact ih p h
    · simp [hx] at hp
      rcases hr : splitOnChar c xs with _ | ⟨y, ys⟩
      · exact absurd hr (splitOnChar_ne_nil c xs)
      · rw [hr] at hp
        simp at hp
        rcases hp with h | h
        · subst h
          intro hmem
          rcases List.mem_cons.mp hmem with h | h
          · exact hx h.symm
          · exact ih y (by simp [hr]) h
        · exact ih p (by simp [hr, h])

theorem mem_of_mem_splitOnChar (c : Char) (l : List Char) :
    ∀ p ∈ splitOnChar c l, ∀ x ∈ p, x ∈ l := by
  induction l with
  | nil => intro p hp; simp [splitOnChar] at hp; simp [hp]
  | cons a xs ih =>
    intro p hp x hx
    simp only [splitOnChar] at hp
    by_cases ha : a = c
    · simp [ha] at hp
      rcases hp with h | h
      · simp [h] at hx
      · exact List.mem_cons_of_mem a (ih p h x hx)
    · simp [ha] at hp
      rcases hr : splitOnChar c xs with _ | ⟨y, ys⟩
      · exact absurd hr (splitOnChar_ne_nil c xs)
      · rw [hr] at hp
        simp at hp
        rcases hp with h | h
        · subst h
          rcases List.mem_cons.mp hx with h | h
          · simp [h]
          · exact List.mem_cons_of_mem a (ih y (by simp [hr]) x h)
        · exact List.mem_cons_of_mem a (ih p (by simp [hr, h]) x hx)

theorem joinWith_cons (c : Char) (p : List Char) (ps : List (List Char))
    (h : ps ≠ []) : joinWith c (p :: ps) = p ++ c :: joinWith c ps := by
  cases ps with
  | nil => exact absurd rfl h
  | cons q qs => rfl

theorem joinWith_splitOnChar (c : Char) (l : List Char) :
    joinWith c (splitOnChar c l) = l := by
  induction l with
  | nil => rfl
  | cons x xs ih =>
    simp only [splitOnChar]
    by_cases hx : x = c
    · rw [if_pos hx, joinWith_cons c [] _ (splitOnChar_ne_nil c xs), ih]
      simp [hx]
    · simp only [if_neg hx]
      rcases hr : splitOnChar c xs with _ | ⟨y, ys⟩
      · exact absurd hr (splitOnChar_ne_nil c xs)
      · rw [hr] at ih
        cases ys with
        | nil =>
          simp only [joinWith] at ih ⊢
          rw [ih]
        | cons z zs =>
          rw [joinWith_cons c (x :: y) _ (by simp),
              joinWith_cons c y _ (by simp)] at *
          rw [← ih]
          simp

theorem two_le_splitOnChar_length (c : Char) (l : List Char) (h : c ∈ l) :
    2 ≤ (splitOnChar c l).length := by
  induction l with
  | nil => simp at h
  | cons x xs ih =>
    simp only [splitOnChar]
    by_cases hx : x = c
    · rw [if_pos hx]
      have hne := splitOnChar_ne_nil c xs
      have : 1 ≤ (splitOnChar c xs).length := by
        cases hr : splitOnChar c xs with
        | nil => exact absurd hr hne
        | cons a b => simp
      simp only [List.length_cons]
      omega
    · have hc : c ∈ xs := by
        rcases List.mem_cons.mp h with h | h
        · exact absurd h.symm hx
        · exact h
      simp only [if_neg hx]
      rcases hr : splitOnChar c xs with _ | ⟨y, ys⟩
      · exact absurd hr (splitOnChar_ne_nil c xs)
      · have := ih hc
        rw [hr] at this
        simpa using this

theorem startsL_nil_snd (l : List Char) : startsL l [] = true := by
  cases l <;> rfl

theorem containsL_singleton (l : List Char) (c : Char) :
    containsL l [c] = true ↔ c ∈ l := by
  induction l with
  | nil => simp [containsL, startsL]
  | cons x xs ih =>
    have hu : containsL (x :: xs) [c] = (startsL (x :: xs) [c] || containsL xs [c]) := rfl
    have hs : startsL (x :: xs) [c] = (decide (c = x) && startsL xs []) := rfl
    rw [hu, hs, startsL_nil_snd, Bool.and_true]
    simp [ih, List.mem_cons]

theorem getLastD_concat_char {α : Type} (l : List α) (a d : α) :
    (l ++ [a]).getLastD d = a :=
  List.getLastD_concat d a l

theorem joinWith_concat (c : Char) (ps : List (List Char)) (q : List Char)
    (h : ps ≠ []) : joinWith c (ps ++ [q]) = joinWith c ps ++ c :: q := by
  induction ps with
  | nil => exact absurd rfl h
  | cons p ps ih =>
    cases ps with
    | nil => rfl
    | cons r rs =>
      rw [List.cons_append, joinWith_cons c p _ (by simp),
          joinWith_cons c p _ (by simp), ih (by simp)]
      simp

theorem getLastD_map_mk (l : List (List Char)) (d : List Char) :
    ((l.map (fun x => (⟨x⟩ : String))).getLastD ⟨d⟩) = ⟨l.getLastD d⟩ := by
  induction l generalizing d with
  | nil => rfl
  | cons x xs ih =>
    simp only [List.map_cons, List.getLastD_cons]
    exact ih x

theorem getLastD_mem {α : Type} (l : List α) (d : α) (h : l ≠ []) :
    l.getLastD d ∈ l := by
  induction l generalizing d with
  | nil => exact absurd rfl h
  | cons a xs ih =>
    rw [List.getLastD_cons]
    cases xs with
    | nil => simp
    | cons b ys => exact List.mem_cons_of_mem a (ih a (by simp))

/-- The text before the last occurrence of `c` can be recovered:
`l = p ++ c :: lastPiece` when `c ∈ l`. -/
theorem last_piece_decomp (c : Char) (l : List Char) (h : c ∈ l) :
    ∃ p, l = p ++ c :: (splitOnChar c l).getLastD [] := by
  have hne : splitOnChar c l ≠ [] := splitOnChar_ne_nil c l
  have hlen : 2 ≤ (splitOnChar c l).length := two_le_splitOnChar_length c l h
  have hdec := List.dropLast_append_getLast hne
  have hdl : (splitOnChar c l).dropLast ≠ [] := by
    have h1 := List.length_dropLast (splitOnChar c l)
    intro hc
    rw [hc] at h1
    simp at h1
    omega
  refine ⟨joinWith c (splitOnChar c l).dropLast, ?_⟩
  have hgl : (splitOnChar c l).getLastD [] = (splitOnChar c l).getLast hne := by
    conv_lhs => rw [← hdec]
    rw [getLastD_concat_char]
  rw [hgl]
  conv_lhs => rw [← joinWith_splitOnChar c l]
  conv_lhs => rw [← hdec]
  rw [joinWith_concat c _ _ hdl]

/-- The text after the first occurrence of `c` can be recovered:
`l = headPiece ++ c :: q` when `c ∈ l`. -/
theorem head_piece_decomp (c : Char) (l : List Char) (h : c ∈ l) :
    ∃ q, l = (splitOnChar c l).headD [] ++ c :: q := by
  have hne : splitOnChar c l ≠ [] := splitOnChar_ne_nil c l
  have hlen : 2 ≤ (splitOnChar c l).length := two_le_splitOnChar_length c l h
  obtain ⟨q0, t, hq0⟩ : ∃ q0 t, splitOnChar c l = q0 :: t := by
    cases hh : splitOnChar c l with
    | nil => exact absurd hh hne
    | cons a b => exact ⟨a, b, rfl⟩
  have ht : t ≠ [] := by
    intro hc
    rw [hq0, hc] at hlen
    simp at hlen
  refine ⟨joinWith c t, ?_⟩
  conv_lhs => rw [← joinWith_splitOnChar c l]
  rw [hq0, joinWith_cons c q0 t ht]
  simp

/-- Characterization of `cleanImageStr` on a value containing `'/'`:
the result is the text strictly between the last `'/'` and the first
subsequent `'?'` (or the end), and it contains neither `'/'` nor
`'?'`. -/
theorem cleanImageStr_char (s : String) (h : strIn "/" s = true) :
    ∃ p q, s.data = p ++ '/' :: (cleanImageStr s).data ++ q
      ∧ '/' ∉ (cleanImageStr s).data ∧ '/' ∉ q
      ∧ '?' ∉ (cleanImageStr s).data
      ∧ (q = [] ∨ ∃ q', q = '?' :: q') := by
  have hmem : '/' ∈ s.data := (containsL_singleton s.data '/').mp h
  obtain ⟨seg, hsegdef⟩ : ∃ seg, (splitOnChar '/' s.data).getLastD [] = seg := ⟨_, rfl⟩
  have hfile : (pySplit s '/').getLastD "" = ⟨seg⟩ := by
    show ((splitOnChar '/' s.data).map (fun x => (⟨x⟩ : String))).getLastD ⟨[]⟩ = ⟨seg⟩
    rw [getLastD_map_mk, hsegdef]
  obtain ⟨p, hp⟩ := last_piece_decomp '/' s.data hmem
  rw [hsegdef] at hp
  have hsegmem : seg ∈ splitOnChar '/' s.data := by
    rw [← hsegdef]
    exact getLastD_mem _ _ (splitOnChar_ne_nil '/' s.data)
  have hnoslash : '/' ∉ seg := not_mem_of_mem_splitOnChar '/' s.data seg hsegmem
  by_cases hq : strIn "?" (⟨seg⟩ : String) = true
  · -- the final segment contains a '?': take the text before the first one
    have hqmem : '?' ∈ seg := (containsL_singleton seg '?').mp hq
    obtain ⟨r0, hr0def⟩ : ∃ r0, (splitOnChar '?' seg).headD [] = r0 := ⟨_, rfl⟩
    obtain ⟨q1, hq1⟩ := head_piece_decomp '?' seg hqmem
    rw [hr0def] at hq1
    have hres : cleanImageStr s = ⟨r0⟩ := by
      unfold cleanImageStr
      rw [if_pos h, hfile, if_pos hq]
      show ((splitOnChar '?' (⟨seg⟩ : String).data).map (fun x => (⟨x⟩ : String))).headD ⟨[]⟩ = ⟨r0⟩
      have hd : (⟨seg⟩ : String).data = seg := rfl
      rw [hd]
      cases hh : splitOnChar '?' seg with
      | nil => exact absurd hh (splitOnChar_ne_nil '?' seg)
      | cons a b =>
        rw [hh] at hr0def
        simp at hr0def
        simp [hr0def]
    have hr0mem : r0 ∈ splitOnChar '?' seg := by
      rw [← hr0def]
      cases hh : splitOnChar '?' seg with
      | nil => exact absurd hh (splitOnChar_ne_nil '?' seg)
      | cons a b => simp
    have hr0nq : '?' ∉ r0 := not_mem_of_mem_splitOnChar '?' seg r0 hr0mem
    refine ⟨p, '?' :: q1, ?_, ?_, ?_, ?_, Or.inr ⟨q1, rfl⟩⟩
    · rw [hp, hq1, hres]
      simp
    · rw [hres]
      intro hc
      exact hnoslash (by rw [hq1]; exact List.mem_append_left _ hc)
    · intro hc
      rcases List.mem_cons.mp hc with hc | hc
      · exact absurd hc (by decide)
      · exact hnoslash (by rw [hq1]; exact List.mem_append_right _ (List.mem_cons_of_mem _ hc))
    · rw [hres]
      exact hr0nq
  · -- no '?' in the final segment: it is returned whole
    have hres : cleanImageStr s = ⟨seg⟩ := by
      unfold cleanImageStr
      rw [if_pos h, hfile, if_neg hq]
    have hnq : '?' ∉ seg := fun hc => hq ((containsL_singleton seg '?').mpr hc)
    refine ⟨p, [], ?_, ?_, by simp, ?_, Or.inl rfl⟩
    · rw [hp, hres]
      simp
    · rw [hres]
      exact hnoslash
    · rw [hres]
      exact hnq

/-- After one rewrite the image value contains no `'/'`, so a second
run leaves it untouched. -/
theorem cleanImageStr_no_slash (s : String) (h : strIn "/" s = true) :
    strIn "/" (cleanImageStr s) = false := by
  obtain ⟨p, q, _, hns, _⟩ := cleanImageStr_char s h
  cases hb : strIn "/" (cleanImageStr s) with
  | false => rfl
  | true => exact absurd ((containsL_singleton _ _).mp hb) hns

theorem getKey_setKey_self (kvs : List (String × Json)) (k : String) (v : Json) :
    getKey (setKey kvs k v) k = some v := by
  induction kvs with
  | nil => simp [setKey, getKey]
  | cons kv rest ih =>
    obtain ⟨k', v'⟩ := kv
    by_cases hk : k' = k
    · simp [setKey, hk, getKey]
    · simp [setKey, hk, getKey, ih]

/-- A record whose image value is a string with no `'/'` is left
untouched and not counted as modified. -/
theorem cleanItem_untouched (kvs dkvs : List (String × Json)) (s : String)
    (hd : getKey kvs "data" = some (Json.obj dkvs))
    (hi : getKey dkvs "image" = some (Json.str s))
    (hs : strIn "/" s = false) :
    cleanItem (Json.obj kvs) = .ok (Json.obj kvs, false) := by
  simp [cleanItem, getKeyD, hasKey, hd, hi, pyContainsStr, pySubscriptStr, hs]

/-- A record whose image value is a string containing `'/'` is
rewritten through `cleanImageStr` and counted as modified. -/
theorem cleanItem_modified (kvs dkvs : List (String × Json)) (s : String)
    (hd : getKey kvs "data" = some (Json.obj dkvs))
    (hi : getKey dkvs "image" = some (Json.str s))
    (hs : strIn "/" s = true) :
    cleanItem (Json.obj kvs) = .ok
      (Json.obj (setKey kvs "data" (Json.obj (setKey dkvs "image"
        (Json.str (cleanImageStr s))))), true) := by
  simp [cleanItem, getKeyD, hasKey, hd, hi, pyContainsStr, pySubscriptStr, hs]

/-- Re-running the per-record rewrite on its own output changes
nothing and counts no modification. -/
theorem cleanItem_idem (item item' : Json) (b : Bool)
    (h : cleanItem item = .ok (item', b)) :
    cleanItem item' = .ok (item', false) := by
  cases item with
  | null =>
    simp only [cleanItem] at h
    simp only [exc_pure_eq_ok, Except.ok.injEq, Prod.mk.injEq] at h
    obtain ⟨h1, _⟩ := h
    subst h1
    rfl
  | bool b' =>
    simp only [cleanItem, exc_pure_eq_ok, Except.ok.injEq, Prod.mk.injEq] at h
    obtain ⟨h1, _⟩ := h
    subst h1
    rfl
  | num n =>
    simp only [cleanItem, exc_pure_eq_ok, Except.ok.injEq, Prod.mk.injEq] at h
    obtain ⟨h1, _⟩ := h
    subst h1
    rfl
  | str s =>
    simp only [cleanItem, exc_pure_eq_ok, Except.ok.injEq, Prod.mk.injEq] at h
    obtain ⟨h1, _⟩ := h
    subst h1
    rfl
  | arr xs =>
    simp only [cleanItem, exc_pure_eq_ok, Except.ok.injEq, Prod.mk.injEq] at h
    obtain ⟨h1, _⟩ := h
    subst h1
    rfl
  | obj kvs =>
    rcases hd : getKey kvs "data" with _ | dv
    · -- no "data" key: untouched
      simp only [cleanItem, hasKey, hd, Option.isSome_none, Bool.false_eq_true,
        if_false, exc_pure_eq_ok, Except.ok.injEq, Prod.mk.injEq] at h
      obtain ⟨h1, _⟩ := h
      subst h1
      simp [cleanItem, hasKey, hd]
    · have hdd : getKeyD kvs "data" (Json.obj []) = dv := by simp [getKeyD, hd]
      simp only [cleanItem, hasKey, hd, Option.isSome_some, if_true, hdd] at h
      cases hc : pyContainsStr "image" dv with
      | error e => rw [hc] at h; simp at h
      | ok cb =>
        rw [hc] at h
        simp only [exc_ok_bind] at h
        cases cb with
        | false =>
          simp only [Bool.false_eq_true, if_false, exc_pure_eq_ok,
            Except.ok.injEq, Prod.mk.injEq] at h
          obtain ⟨h1, _⟩ := h
          subst h1
          simp only [cleanItem, hasKey, hd, Option.isSome_some, if_true, hdd]
          rw [hc]
          simp
        | true =>
          simp only [if_true] at h
          cases hv : pySubscriptStr dv "image" with
          | error e => rw [hv] at h; simp at h
          | ok v =>
            rw [hv] at h
            simp only [exc_ok_bind] at h
            cases hsl : pyContainsStr "/" v with
            | error e => rw [hsl] at h; simp at h
            | ok sb =>
              rw [hsl] at h
              simp only [exc_ok_bind] at h
              cases sb with
              | false =>
                simp only [Bool.false_eq_true, if_false, exc_pure_eq_ok,
                  Except.ok.injEq, Prod.mk.injEq] at h
                obtain ⟨h1, _⟩ := h
                subst h1
                simp only [cleanItem, hasKey, hd, Option.isSome_some, if_true, hdd]
                rw [hc]
                simp only [exc_ok_bind, if_true]
                rw [hv]
                simp only [exc_ok_bind]
                rw [hsl]
                simp
              | true =>
                simp only [if_true] at h
                cases v with
                | str url =>
                  cases dv with
                  | obj dkvs =>
                    simp only [exc_pure_eq_ok, Except.ok.injEq, Prod.mk.injEq] at h
                    obtain ⟨h1, _⟩ := h
                    subst h1
                    have hurl : strIn "/" url = true := by
                      have : pyContainsStr "/" (Json.str url) = .ok (strIn "/" url) := rfl
                      rw [this] at hsl
                      simpa using hsl.symm
                    exact cleanItem_untouched _ _ _
                      (getKey_setKey_self kvs "data" _)
                      (getKey_setKey_self dkvs "image" _)
                      (cleanImageStr_no_slash url hurl)
                  | null => simp at h
                  | bool x => simp at h
                  | num x => simp at h
                  | str x => simp at h
                  | arr x => simp at h
                | null => simp at h
                | bool x => simp at h
                | num x => simp at h
                | arr x => simp at h
                | obj x => simp at h

/-- Re-running the structured pass on its own output reproduces it
with a zero modification count. -/
theorem cleanData_idem (data out : List Json) (k : Nat)
    (h : cleanData data = .ok (out, k)) :
    cleanData out = .ok (out, 0) := by
  induction data generalizing out k with
  | nil =>
    simp only [cleanData, Except.ok.injEq, Prod.mk.injEq] at h
    obtain ⟨h1, _⟩ := h
    subst h1
    rfl
  | cons item rest ih =>
    simp only [cleanData] at h
    cases h1 : cleanItem item with
    | error e => rw [h1] at h; simp at h
    | ok p =>
      obtain ⟨item', b⟩ := p
      rw [h1] at h
      simp only [exc_ok_bind] at h
      cases h2 : cleanData rest with
      | error e => rw [h2] at h; simp at h
      | ok p2 =>
        obtain ⟨rest', k'⟩ := p2
        rw [h2] at h
        simp only [exc_ok_bind, exc_pure_eq_ok, Except.ok.injEq, Prod.mk.injEq] at h
        obtain ⟨h3, _⟩ := h
        subst h3
        have hi := cleanItem_idem item item' b h1
        have hr := ih rest' k' h2
        simp [cleanData, hi, hr]

/-- Claim C5: for every record whose `data.image` value contains a
`'/'`, the Path Normalizer replaces it with the final path segment
with any query-string suffix (text following a `'?'`) removed; in
particular `"http://x/y/name.png?token=abc"` is normalized to
`"name.png"`. -/
theorem c5_final_segment (s : String) (h : strIn "/" s = true) :
    (∃ p q, s.data = p ++ '/' :: (cleanImageStr s).data ++ q
        ∧ '/' ∉ (cleanImageStr s).data ∧ '/' ∉ q
        ∧ '?' ∉ (cleanImageStr s).data
        ∧ (q = [] ∨ ∃ q', q = '?' :: q'))
    ∧ (∀ kvs dkvs, getKey kvs "data" = some (Json.obj dkvs) →
        getKey dkvs "image" = some (Json.str s) →
        cleanItem (Json.obj kvs) = .ok
          (Json.obj (setKey kvs "data" (Json.obj (setKey dkvs "image"
            (Json.str (cleanImageStr s))))), true))
    ∧ cleanImageStr "http://x/y/name.png?token=abc" = "name.png" :=
  ⟨cleanImageStr_char s h,
   fun kvs dkvs hd hi => cleanItem_modified kvs dkvs s hd hi h,
   by decide⟩

/-- Witness for C5 at the spec's concrete input. -/
theorem c5_witness :
    cleanItem (Json.obj [("data", Json.obj
        [("image", Json.str "http://x/y/name.png?token=abc")])])
      = .ok (Json.obj [("data", Json.obj [("image", Json.str "name.png")])], true) := by
  have h := (c5_final_segment "http://x/y/name.png?token=abc" (by decide)).2.1
    [("data", Json.obj [("image", Json.str "http://x/y/name.png?token=abc")])]
    [("image", Json.str "http://x/y/name.png?token=abc")] rfl rfl
  exact h.trans (by rfl)

/-- Claim C8: the Path Normalizer is idempotent on its structured
path: a second run on the output of a structured run reproduces the
output exactly with a zero modification count. -/
theorem c8_idempotent (parsed : Option Json) (doc : Json) (k : Nat)
    (h : clean_image_paths_in_json parsed = .structured doc k) :
    clean_image_paths_in_json (some doc) = .structured doc 0 := by
  cases parsed with
  | none => simp [clean_image_paths_in_json] at h
  | some v =>
    cases v with
    | null => simp [clean_image_paths_in_json] at h
    | bool b => simp [clean_image_paths_in_json] at h
    | num n => simp [clean_image_paths_in_json] at h
    | str s =>
      simp only [clean_image_paths_in_json, CleanOutcome.structured.injEq] at h
      obtain ⟨h1, _⟩ := h
      rw [← h1]
      rfl
    | obj kvs =>
      simp only [clean_image_paths_in_json, CleanOutcome.structured.injEq] at h
      obtain ⟨h1, _⟩ := h
      rw [← h1]
      rfl
    | arr xs =>
      cases hcd : cleanData xs with
      | ok p =>
        obtain ⟨out, k'⟩ := p
        simp only [clean_image_paths_in_json, hcd, CleanOutcome.structured.injEq] at h
        obtain ⟨h1, _⟩ := h
        rw [← h1]
        simp [clean_image_paths_in_json, cleanData_idem xs out k' hcd]
      | error e =>
        cases e <;> simp [clean_image_paths_in_json, hcd] at h

/-- Witness for C8 on a one-record list. -/
theorem c8_witness :
    clean_image_paths_in_json (some (Json.arr [Json.obj [("data", Json.obj
        [("image", Json.str "a/b.jpg?x")])]]))
      = .structured (Json.arr [Json.obj [("data", Json.obj
        [("image", Json.str "b.jpg")])]]) 1
    ∧ clean_image_paths_in_json (some (Json.arr [Json.obj [("data", Json.obj
        [("image", Json.str "b.jpg")])]]))
      = .structured (Json.arr [Json.obj [("data", Json.obj
        [("image", Json.str "b.jpg")])]]) 0 :=
  ⟨rfl, c8_idempotent
    (some (Json.arr [Json.obj [("data", Json.obj [("image", Json.str "a/b.jpg?x")])]]))
    (Json.arr [Json.obj [("data", Json.obj [("image", Json.str "b.jpg")])]]) 1 rfl⟩

/-- Claim C3 counterexample: a top-level JSON object is not a list,
yet `clean_image_paths_in_json` processes it on the structured path
(iterating its keys and modifying nothing) rather than taking the
fallback, because `len`/`enumerate` raise no `TypeError` on a dict. -/
theorem c3_counterexample :
    clean_image_paths_in_json (some (Json.obj [("a", Json.null)]))
      = .structured (Json.obj [("a", Json.null)]) 0
    ∧ clean_image_paths_in_json (some (Json.obj [("a", Json.null)])) ≠ .fallback
    ∧ ∀ xs, Json.obj [("a", Json.null)] ≠ Json.arr xs := by
  refine ⟨rfl, ?_, ?_⟩
  · intro hc
    rw [show clean_image_paths_in_json (some (Json.obj [("a", Json.null)]))
          = .structured (Json.obj [("a", Json.null)]) 0 from rfl] at hc
    exact CleanOutcome.noConfusion hc
  · intro xs hc
    exact Json.noConfusion hc

/-- Claim C3 amended: the fallback path is taken exactly when parsing
fails, when the top-level value is `null`, a boolean or a number
(where Python's `len`/`enumerate` raise the caught `TypeError`), or
when the structured loop over a top-level list itself raises a
`TypeError`; a top-level object or string is processed structurally
and left unmodified. -/
theorem c3_amended (parsed : Option Json) :
    clean_image_paths_in_json parsed = .fallback ↔
      (parsed = none ∨ parsed = some Json.null
        ∨ (∃ b, parsed = some (Json.bool b))
        ∨ (∃ n, parsed = some (Json.num n))
        ∨ (∃ xs, parsed = some (Json.arr xs)
            ∧ cleanData xs = .error PyErr.typeError)) := by
  cases parsed with
  | none => simp [clean_image_paths_in_json]
  | some v =>
    cases v with
    | null => simp [clean_image_paths_in_json]
    | bool b => simp [clean_image_paths_in_json]
    | num n => simp [clean_image_paths_in_json]
    | str s => simp [clean_image_paths_in_json]
    | obj kvs => simp [clean_image_paths_in_json]
    | arr xs =>
      cases hcd : cleanData xs with
      | ok p => simp [clean_image_paths_in_json, hcd]
      | error e =>
        cases e <;> simp [clean_image_paths_in_json, hcd]

/-- The spec's collection criterion for the Image Locator: the
stripped filename ends (case-insensitively) in one of the three image
extensions.  Stated from the spec's words, for comparison with the
code's `containsExtCheck`. -/
def specEndsExt (n : String) : Bool :=
  [".jpg", ".jpeg", ".png"].any (fun ext => endsWithStr (lowerStr n) ext)

/-- Claim C1 counterexample: the record with image value
`"http://a/photo.jpg.bak"` has stripped name `"photo.jpg.bak"`, which
does not end in any image extension, yet the extraction phase
collects it, because the code tests substring containment
(`ext in filename.lower()`), not a suffix. -/
theorem c1_counterexample :
    extract_image_names [Json.obj [("data", Json.obj
        [("image", Json.str "http://a/photo.jpg.bak")])]]
      = .ok ["photo.jpg.bak"]
    ∧ specEndsExt "photo.jpg.bak" = false :=
  ⟨rfl, by decide⟩

/-- What it takes for one record to contribute a name. -/
theorem itemName_ok_some_iff (item : Json) (n : String) :
    itemName item = .ok (some n) ↔
      ∃ kvs dkvs s, item = Json.obj kvs
        ∧ getKey kvs "data" = some (Json.obj dkvs)
        ∧ getKey dkvs "image" = some (Json.str s)
        ∧ strippedName s = n ∧ containsExtCheck n = true := by
  cases item with
  | null => simp [itemName]
  | bool b => simp [itemName]
  | num m => simp [itemName]
  | str s => simp [itemName]
  | arr xs => simp [itemName]
  | obj kvs =>
    rcases hd : getKey kvs "data" with _ | dv
    · simp [itemName, hasKey, hd]
    · have hdd : getKeyD kvs "data" (Json.obj []) = dv := by simp [getKeyD, hd]
      cases dv with
      | obj dkvs =>
        rcases hi : getKey dkvs "image" with _ | v
        · simp [itemName, hasKey, hd, hdd, pyContainsStr, hi]
        · cases v with
          | str s =>
            by_cases hext : containsExtCheck (strippedName s) = true
            · simp [itemName, hasKey, hd, hdd, pyContainsStr, pySubscriptStr, hi, hext]
              rintro rfl
              exact hext
            · simp [itemName, hasKey, hd, hdd, pyContainsStr, pySubscriptStr, hi, hext]
              rintro rfl
              simp at hext
              exact hext
          | null => simp [itemName, hasKey, hd, hdd, pyContainsStr, pySubscriptStr, hi]
          | bool b => simp [itemName, hasKey, hd, hdd, pyContainsStr, pySubscriptStr, hi]
          | num m => simp [itemName, hasKey, hd, hdd, pyContainsStr, pySubscriptStr, hi]
          | arr ys => simp [itemName, hasKey, hd, hdd, pyContainsStr, pySubscriptStr, hi]
          | obj okvs => simp [itemName, hasKey, hd, hdd, pyContainsStr, pySubscriptStr, hi]
      | null => simp [itemName, hasKey, hd, hdd, pyContainsStr]
      | bool b => simp [itemName, hasKey, hd, hdd, pyContainsStr]
      | num m => simp [itemName, hasKey, hd, hdd, pyContainsStr]
      | str s' =>
        cases hc : strIn "image" s' with
        | false => simp [itemName, hasKey, hd, hdd, pyContainsStr, hc]
        | true => simp [itemName, hasKey, hd, hdd, pyContainsStr, pySubscriptStr, hc]
      | arr ys =>
        cases hc : ys.any (fun x => isStrEq x "image") with
        | false => simp [itemName, hasKey, hd, hdd, pyContainsStr, hc]
        | true => simp [itemName, hasKey, hd, hdd, pyContainsStr, pySubscriptStr, hc]

/-- Membership in the extracted list comes record-wise. -/
theorem extract_image_names_mem (data : List Json) (ns : List String)
    (h : extract_image_names data = .ok ns) (n : String) :
    n ∈ ns ↔ ∃ item ∈ data, itemName item = .ok (some n) := by
  induction data generalizing ns with
  | nil =>
    simp only [extract_image_names, Except.ok.injEq] at h
    subst h
    simp
  | cons item rest ih =>
    simp only [extract_image_names] at h
    cases h1 : itemName item with
    | error e => rw [h1] at h; simp at h
    | ok r =>
      rw [h1] at h
      simp only [exc_ok_bind] at h
      cases h2 : extract_image_names rest with
      | error e => rw [h2] at h; simp at h
      | ok ns' =>
        rw [h2] at h
        simp only [exc_ok_bind, exc_pure_eq_ok, Except.ok.injEq] at h
        subst h
        rw [List.mem_append]
        constructor
        · rintro (hn | hn)
          · cases r with
            | none => simp at hn
            | some m =>
              simp at hn
              subst hn
              exact ⟨item, List.mem_cons_self item rest, h1⟩
          · obtain ⟨it, hit, hok⟩ := (ih ns' h2 ).mp hn
            exact ⟨it, List.mem_cons_of_mem item hit, hok⟩
        · rintro ⟨it, hit, hok⟩
          rcases List.mem_cons.mp hit with rfl | hit
          · rw [h1] at hok
            cases r with
            | none => simp at hok
            | some m =>
              simp at hok
              subst hok
              left
              simp
          · right
            exact (ih ns' h2).mpr ⟨it, hit, hok⟩

/-- Claim C1 (amended): a record's image value — reduced to its final
path segment with any query suffix stripped — is collected as a
target name iff its lowercasing CONTAINS one of `.jpg`, `.jpeg`,
`.png` anywhere (substring containment, not a suffix test), so
`"photo.jpg.bak"` IS collected. -/
theorem c1_collects_iff_contains (data : List Json) (ns : List String)
    (h : extract_image_names data = .ok ns) (n : String) :
    n ∈ ns ↔ ∃ item ∈ data, ∃ kvs dkvs s,
      item = Json.obj kvs
      ∧ getKey kvs "data" = some (Json.obj dkvs)
      ∧ getKey dkvs "image" = some (Json.str s)
      ∧ strippedName s = n ∧ containsExtCheck n = true := by
  rw [extract_image_names_mem data ns h n]
  constructor
  · rintro ⟨item, hmem, hok⟩
    exact ⟨item, hmem, (itemName_ok_some_iff item n).mp hok⟩
  · rintro ⟨item, hmem, hch⟩
    exact ⟨item, hmem, (itemName_ok_some_iff item n).mpr hch⟩

/-- Witness for C1's amended statement on the counterexample input. -/
theorem c1_witness :
    ∃ item ∈ [Json.obj [("data", Json.obj
        [("image", Json.str "http://a/photo.jpg.bak")])]], ∃ kvs dkvs s,
      item = Json.obj kvs
      ∧ getKey kvs "data" = some (Json.obj dkvs)
      ∧ getKey dkvs "image" = some (Json.str s)
      ∧ strippedName s = "photo.jpg.bak"
      ∧ containsExtCheck "photo.jpg.bak" = true :=
  (c1_collects_iff_contains
    [Json.obj [("data", Json.obj [("image", Json.str "http://a/photo.jpg.bak")])]]
    ["photo.jpg.bak"] rfl "photo.jpg.bak").mp (by simp)

/-- First-match characterization: `firstMatch` returns `n` exactly
when `n` occurs in the target list, its text occurs in the file name,
and no earlier target's text does. -/
theorem firstMatch_iff (image_names : List String) (file n : String) :
    firstMatch image_names file = some n ↔
      ∃ pre post, image_names = pre ++ n :: post ∧ strIn n file = true ∧
        ∀ m ∈ pre, strIn m file = false := by
  induction image_names with
  | nil =>
    simp only [firstMatch]
    constructor
    · intro h
      exact Option.noConfusion h
    · rintro ⟨pre, post, hsplit, -, -⟩
      exact absurd hsplit (by simp)
  | cons a rest ih =>
    simp only [firstMatch]
    cases ha : strIn a file with
    | true =>
      simp only [if_true]
      constructor
      · intro h
        obtain rfl : a = n := by
          simpa using h
        exact ⟨[], rest, rfl, ha, by simp⟩
      · rintro ⟨pre, post, hsplit, hn, hpre⟩
        cases pre with
        | nil =>
          simp at hsplit
          simp [hsplit.1]
        | cons b pre' =>
          have hb : b = a := by
            have := congrArg (fun l => l.headD "") hsplit
            simpa using this.symm
          have : strIn a file = false := hb ▸ hpre b (List.mem_cons_self b pre')
          rw [this] at ha
          exact Bool.noConfusion ha
    | false =>
      simp only [Bool.false_eq_true, if_false]
      rw [ih]
      constructor
      · rintro ⟨pre, post, hsplit, hn, hpre⟩
        refine ⟨a :: pre, post, by rw [hsplit]; rfl, hn, ?_⟩
        intro m hm
        rcases List.mem_cons.mp hm with rfl | hm
        · exact ha
        · exact hpre m hm
      · rintro ⟨pre, post, hsplit, hn, hpre⟩
        cases pre with
        | nil =>
          simp at hsplit
          rw [hsplit.1] at ha
          rw [ha] at hn
          exact Bool.noConfusion hn
        | cons b pre' =>
          simp at hsplit
          obtain ⟨-, hrest⟩ := hsplit
          exact ⟨pre', post, hrest, hn, fun m hm => hpre m (List.mem_cons_of_mem b hm)⟩

/-- Claim C4: during the walk, an image file is matched against the
target names in extraction order; the first name whose text occurs in
the file's base name is the unique match; exactly one copy of the
file to the destination is attempted for it, and none when no name
matches — a file is matched against at most one target name. -/
theorem c4_first_match_wins (image_names : List String) (file : String)
    (him : isImageFile file = true) :
    (∀ n, firstMatch image_names file = some n ↔
      ∃ pre post, image_names = pre ++ n :: post ∧ strIn n file = true ∧
        ∀ m ∈ pre, strIn m file = false)
    ∧ (∀ (copyOk : String → Bool) (st : WalkState),
        (processFile copyOk image_names st file).tried
          = st.tried ++ (match firstMatch image_names file with
                         | some n => [(file, n)]
                         | none => [])) := by
  refine ⟨fun n => firstMatch_iff image_names file n, fun copyOk st => ?_⟩
  unfold processFile
  rw [if_pos him]
  cases firstMatch image_names file with
  | none => simp
  | some n => simp

/-- Witness for C4 on a concrete file and target list. -/
theorem c4_witness :
    (processFile (fun _ => true) ["zz", "abc.jpg"] ⟨[], []⟩ "xxx_abc.jpg").tried
      = [("xxx_abc.jpg", "abc.jpg")] := by
  have h := (c4_first_match_wins ["zz", "abc.jpg"] "xxx_abc.jpg" (by decide)).2
    (fun _ => true) ⟨[], []⟩
  rw [h]
  decide

theorem mem_addFound (x n : String) (l : List String) :
    x ∈ addFound n l ↔ x = n ∨ x ∈ l := by
  by_cases hn : n ∈ l
  · simp only [addFound, if_pos hn]
    constructor
    · exact Or.inr
    · rintro (rfl | h)
      · exact hn
      · exact h
  · simp only [addFound, if_neg hn, List.mem_append, List.mem_singleton]
    tauto

/-- A name is in the found-set after the walk iff some image file in
the walk has it as first match and its copy succeeded. -/
theorem run_found_iff (copyOk : String → Bool) (image_names : List String) :
    ∀ (files : List String) (st : WalkState) (n : String),
      n ∈ (recursive_search_and_copy copyOk image_names st files).found ↔
        n ∈ st.found ∨ ∃ g ∈ files, isImageFile g = true ∧
          firstMatch image_names g = some n ∧ copyOk g = true := by
  intro files
  induction files with
  | nil => intro st n; simp [recursive_search_and_copy]
  | cons f fs ih =>
    intro st n
    have hstep : recursive_search_and_copy copyOk image_names st (f :: fs)
        = recursive_search_and_copy copyOk image_names
            (processFile copyOk image_names st f) fs := rfl
    rw [hstep, ih]
    by_cases him : isImageFile f = true
    · cases hm : firstMatch image_names f with
      | none =>
        have hpf : processFile copyOk image_names st f = st := by
          unfold processFile
          rw [if_pos him, hm]
        rw [hpf]
        simp only [List.mem_cons]
        constructor
        · rintro (h | ⟨g, hg, h1, h2, h3⟩)
          · exact Or.inl h
          · exact Or.inr ⟨g, Or.inr hg, h1, h2, h3⟩
        · rintro (h | ⟨g, hg, h1, h2, h3⟩)
          · exact Or.inl h
          · rcases hg with rfl | hg
            · rw [hm] at h2
              exact absurd h2 (by simp)
            · exact Or.inr ⟨g, hg, h1, h2, h3⟩
      | some m =>
        have hpf : (processFile copyOk image_names st f).found =
            (if copyOk f then addFound m st.found else st.found) := by
          unfold processFile
          rw [if_pos him, hm]
        by_cases hok : copyOk f = true
        · rw [hpf, if_pos hok, mem_addFound]
          simp only [List.mem_cons]
          constructor
          · rintro ((rfl | h) | ⟨g, hg, h1, h2, h3⟩)
            · exact Or.inr ⟨f, Or.inl rfl, him, hm, hok⟩
            · exact Or.inl h
            · exact Or.inr ⟨g, Or.inr hg, h1, h2, h3⟩
          · rintro (h | ⟨g, hg, h1, h2, h3⟩)
            · exact Or.inl (Or.inr h)
            · rcases hg with rfl | hg
              · rw [hm] at h2
                injection h2 with h2
                exact Or.inl (Or.inl h2.symm)
              · exact Or.inr ⟨g, hg, h1, h2, h3⟩
        · have hok' : copyOk f = false := by simpa using hok
          rw [hpf, hok']
          simp only [Bool.false_eq_true, if_false, List.mem_cons]
          constructor
          · rintro (h | ⟨g, hg, h1, h2, h3⟩)
            · exact Or.inl h
            · exact Or.inr ⟨g, Or.inr hg, h1, h2, h3⟩
          · rintro (h | ⟨g, hg, h1, h2, h3⟩)
            · exact Or.inl h
            · rcases hg with rfl | hg
              · rw [hok'] at h3
                exact absurd h3 (by simp)
              · exact Or.inr ⟨g, hg, h1, h2, h3⟩
    · have hpf : processFile copyOk image_names st f = st := by
        unfold processFile
        rw [if_neg him]
      rw [hpf]
      simp only [List.mem_cons]
      constructor
      · rintro (h | ⟨g, hg, h1, h2, h3⟩)
        · exact Or.inl h
        · exact Or.inr ⟨g, Or.inr hg, h1, h2, h3⟩
      · rintro (h | ⟨g, hg, h1, h2, h3⟩)
        · exact Or.inl h
        · rcases hg with rfl | hg
          · exact absurd h1 him
          · exact Or.inr ⟨g, hg, h1, h2, h3⟩

/-- Every copy attempt recorded by the walk is a first match for its
file. -/
theorem run_tried_mem (copyOk : String → Bool) (image_names : List String) :
    ∀ (files : List String) (st : WalkState) (p : String × String),
      p ∈ (recursive_search_and_copy copyOk image_names st files).tried →
        p ∈ st.tried ∨ (isImageFile p.1 = true ∧ firstMatch image_names p.1 = some p.2) := by
  intro files
  induction files with
  | nil => intro st p h; exact Or.inl h
  | cons f fs ih =>
    intro st p h
    have h' := ih (processFile copyOk image_names st f) p h
    rcases h' with h' | h'
    · unfold processFile at h'
      by_cases him : isImageFile f = true
      · rw [if_pos him] at h'
        cases hm : firstMatch image_names f with
        | none => rw [hm] at h'; exact Or.inl h'
        | some m =>
          rw [hm] at h'
          simp only [List.mem_append, List.mem_singleton] at h'
          rcases h' with h' | h'
          · exact Or.inl h'
          · subst h'
            exact Or.inr ⟨him, hm⟩
      · rw [if_neg him] at h'
        exact Or.inl h'
    · exact Or.inr h'

/-- Claim C9: when copying the file that first-matched target name
`n` fails, the walk continues, `n` is not marked found by that file —
it appears among the missing names unless some other file matches it
with a successful copy — and the failed file is still matched only
against its first matching target name. -/
theorem c9_copy_failure (copyOk : String → Bool) (image_names files : List String)
    (f n : String) (hf : f ∈ files) (him : isImageFile f = true)
    (hm : firstMatch image_names f = some n) (hfail : copyOk f = false) :
    (n ∈ (recursive_search_and_copy copyOk image_names ⟨[], []⟩ files).found ↔
      ∃ g ∈ files, isImageFile g = true ∧
        firstMatch image_names g = some n ∧ copyOk g = true)
    ∧ (n ∈ notFoundOf image_names
          (recursive_search_and_copy copyOk image_names ⟨[], []⟩ files) ↔
        n ∈ image_names ∧ ¬ ∃ g ∈ files, isImageFile g = true ∧
          firstMatch image_names g = some n ∧ copyOk g = true)
    ∧ (∀ m, (f, m) ∈ (recursive_search_and_copy copyOk image_names ⟨[], []⟩ files).tried
        → m = n) := by
  have hfound := run_found_iff copyOk image_names files ⟨[], []⟩ n
  simp only [show (⟨[], []⟩ : WalkState).found = [] from rfl, List.not_mem_nil,
    false_or] at hfound
  refine ⟨hfound, ?_, ?_⟩
  · unfold notFoundOf
    simp only [List.mem_filter, decide_eq_true_eq]
    rw [hfound]
  · intro m hmem
    have ht := run_tried_mem copyOk image_names files ⟨[], []⟩ (f, m) hmem
    rcases ht with h | h
    · simp at h
    · obtain ⟨-, h2⟩ := h
      rw [hm] at h2
      injection h2 with h2
      exact h2.symm

/-- Witness for C9: a failing copy leaves the lone target missing. -/
theorem c9_witness :
    "a.jpg" ∈ notFoundOf ["a.jpg"]
      (recursive_search_and_copy (fun _ => false) ["a.jpg"] ⟨[], []⟩ ["xa.jpg"]) := by
  have h := (c9_copy_failure (fun _ => false) ["a.jpg"] ["xa.jpg"] "xa.jpg" "a.jpg"
    (by simp) (by decide) (by decide) rfl).2.1
  rw [h]
  refine ⟨by simp, ?_⟩
  rintro ⟨g, hg, -, -, hok⟩
  simp at hok

/-- Claim C2: a record carrying both required keys whose
`annotations` value is an empty sequence (or null, i.e. no sequence)
and whose `data` mapping has an `image` value yields a FlatRecord
with all four label fields at the sentinel `"N/A"`. -/
theorem c2_empty_annotations_sentinel (kvs dkvs : List (String × Json)) (a v : Json)
    (hd : getKey kvs "data" = some (Json.obj dkvs))
    (ha : getKey kvs "annotations" = some a)
    (hae : a = Json.arr [] ∨ a = Json.null)
    (hi : getKey dkvs "image" = some v) :
    processItem (Json.obj kvs) = .ok (some
      { image := imgBase ++ pyStr v, image_filename := v,
        image_quality := "N/A", pizza_quality := "N/A",
        pizza_quality_reason := "N/A", comments := Json.str "N/A" }) := by
  have hpa : procAnns a = .ok initFields := by
    rcases hae with rfl | rfl <;> rfl
  simp [processItem, hd, ha, pyContainsStr, pySubscriptStr, hasKey, hi, hpa, initFields]

/-- Witness for C2 on a concrete empty-annotations record. -/
theorem c2_witness :
    processItem (Json.obj [("data", Json.obj [("image", Json.str "pizza2.png")]),
        ("annotations", Json.arr [])])
      = .ok (some
        { image := imgBase ++ "pizza2.png", image_filename := Json.str "pizza2.png",
          image_quality := "N/A", pizza_quality := "N/A",
          pizza_quality_reason := "N/A", comments := Json.str "N/A" }) :=
  c2_empty_annotations_sentinel
    [("data", Json.obj [("image", Json.str "pizza2.png")]), ("annotations", Json.arr [])]
    [("image", Json.str "pizza2.png")] (Json.arr []) (Json.str "pizza2.png")
    rfl rfl (Or.inl rfl) rfl

/-- Claim C6: a record contributes to the extractor's output
(`processItem` returns `some`) iff it is a mapping with both `data`
and `annotations` keys whose data value answers Python's
`'image' in …` test positively; in particular a record with `data`
but no image key, or one missing the `annotations` key, is
excluded. -/
theorem c6_inclusion_iff (item : Json) (r : Option FlatRecord)
    (h : processItem item = .ok r) :
    r.isSome = true ↔ ∃ kvs dv a, item = Json.obj kvs
      ∧ getKey kvs "data" = some dv
      ∧ getKey kvs "annotations" = some a
      ∧ pyContainsStr "image" dv = .ok true := by
  cases item with
  | null =>
    simp only [processItem, exc_pure_eq_ok, Except.ok.injEq] at h
    subst h
    simp
  | bool b =>
    simp only [processItem, exc_pure_eq_ok, Except.ok.injEq] at h
    subst h
    simp
  | num m =>
    simp only [processItem, exc_pure_eq_ok, Except.ok.injEq] at h
    subst h
    simp
  | str s =>
    simp only [processItem, exc_pure_eq_ok, Except.ok.injEq] at h
    subst h
    simp
  | arr xs =>
    simp only [processItem, exc_pure_eq_ok, Except.ok.injEq] at h
    subst h
    simp
  | obj kvs =>
    rcases hd : getKey kvs "data" with _ | dv
    · simp only [processItem, hd] at h
      simp only [exc_pure_eq_ok, Except.ok.injEq] at h
      subst h
      simp [hd]
    · rcases ha : getKey kvs "annotations" with _ | a
      · simp only [processItem, hd, ha, exc_pure_eq_ok, Except.ok.injEq] at h
        subst h
        simp [ha]
      · simp only [processItem, hd, ha] at h
        cases hc : pyContainsStr "image" dv with
        | error e => rw [hc] at h; simp at h
        | ok cb =>
          rw [hc] at h
          simp only [exc_ok_bind] at h
          cases cb with
          | false =>
            simp only [Bool.false_eq_true, if_false, exc_pure_eq_ok, exc_ok_bind] at h
            cases hpa : procAnns a with
            | error e => rw [hpa] at h; simp at h
            | ok fs =>
              rw [hpa] at h
              simp only [exc_ok_bind, exc_pure_eq_ok, Except.ok.injEq] at h
              subst h
              simp only [Option.isSome_none, Bool.false_eq_true, false_iff]
              rintro ⟨kvs', dv', a', heq, hd', ha', hc'⟩
              obtain rfl : kvs' = kvs := by injection heq with h'; exact h'.symm
              rw [hd] at hd'
              obtain rfl : dv' = dv := by injection hd' with h'; exact h'.symm
              rw [hc] at hc'
              injection hc' with h'
              exact Bool.noConfusion h'
          | true =>
            simp only [if_true] at h
            cases hv : pySubscriptStr dv "image" with
            | error e => rw [hv] at h; simp at h
            | ok v =>
              rw [hv] at h
              simp only [exc_ok_bind, exc_pure_eq_ok] at h
              cases hpa : procAnns a with
              | error e => rw [hpa] at h; simp at h
              | ok fs =>
                rw [hpa] at h
                simp only [exc_ok_bind, exc_pure_eq_ok, Except.ok.injEq] at h
                subst h
                simp only [Option.isSome_some, true_iff]
                exact ⟨kvs, dv, a, rfl, hd, ha, hc⟩

/-- Witness for C6: an included record and its structure. -/
theorem c6_witness :
    ∃ kvs dv a,
      Json.obj [("data", Json.obj [("image", Json.str "pizza2.png")]),
        ("annotations", Json.arr [])] = Json.obj kvs
      ∧ getKey kvs "data" = some dv
      ∧ getKey kvs "annotations" = some a
      ∧ pyContainsStr "image" dv = .ok true :=
  (c6_inclusion_iff
    (Json.obj [("data", Json.obj [("image", Json.str "pizza2.png")]),
      ("annotations", Json.arr [])])
    (some { image := imgBase ++ "pizza2.png", image_filename := Json.str "pizza2.png",
            image_quality := "N/A", pizza_quality := "N/A",
            pizza_quality_reason := "N/A", comments := Json.str "N/A" })
    rfl).mp rfl

@[simp] theorem exc_bind_pure {α ε : Type} (e : Except ε α) :
    (e >>= fun a => (pure a : Except ε α)) = e := by
  cases e <;> rfl

theorem isStrEq_true_eq (j : Json) (s : String) (h : isStrEq j s = true) :
    j = Json.str s := by
  cases j with
  | str t => simp [isStrEq] at h; rw [h]
  | null => simp [isStrEq] at h
  | bool b => simp [isStrEq] at h
  | num n => simp [isStrEq] at h
  | arr xs => simp [isStrEq] at h
  | obj kvs => simp [isStrEq] at h

/-- The four recognized output fields, to state sequential
overwrite uniformly. -/
inductive FieldTag where
  | iq : FieldTag
  | pq : FieldTag
  | pqr : FieldTag
  | cm : FieldTag

/-- The `from_name` string of each recognized field. -/
def tagName : FieldTag → String
  | FieldTag.iq => "image_quality"
  | FieldTag.pq => "pizza_quality"
  | FieldTag.pqr => "pizza_quality_reason"
  | FieldTag.cm => "comments"

/-- Read a field of the working state, injected into `Json`
(the categorical fields are strings, comments is a JSON value). -/
def fieldGet : FieldTag → Fields → Json
  | FieldTag.iq, fs => Json.str fs.image_quality
  | FieldTag.pq, fs => Json.str fs.pizza_quality
  | FieldTag.pqr, fs => Json.str fs.pizza_quality_reason
  | FieldTag.cm, fs => fs.comments

/-- Read a field of a FlatRecord. -/
def flatField : FieldTag → FlatRecord → Json
  | FieldTag.iq, fr => Json.str fr.image_quality
  | FieldTag.pq, fr => Json.str fr.pizza_quality
  | FieldTag.pqr, fr => Json.str fr.pizza_quality_reason
  | FieldTag.cm, fr => fr.comments

/-- Does this result entry overwrite the given field (without
raising)?  From the code: its `from_name` equals the field's tag and
its `value` is a mapping with the required inner key (`text` for
comments, `choices` for the categorical fields). -/
def isSetter (t : FieldTag) (r : Json) : Bool :=
  match r with
  | Json.obj rkvs =>
    isStrEq (getKeyD rkvs "from_name" (Json.str "")) (tagName t) &&
      (match getKey rkvs "value" with
       | some (Json.obj vkvs) =>
         (match t with
          | FieldTag.cm => hasKey vkvs "text"
          | _ => hasKey vkvs "choices")
       | _ => false)
  | _ => false

/-- The string `", ".join(c)` produces when it succeeds. -/
def joinVal (c : Json) : String :=
  match c with
  | Json.str s => String.intercalate ", " (s.data.map String.singleton)
  | Json.arr xs => String.intercalate ", " (xs.map (fun x =>
      match x with
      | Json.str s => s
      | _ => ""))
  | Json.obj kvs => String.intercalate ", " (kvs.map Prod.fst)
  | _ => ""

/-- The value a setter writes: the `text` verbatim for comments, the
joined `choices` for the categorical fields. -/
def setterVal (t : FieldTag) (r : Json) : Json :=
  match r with
  | Json.obj rkvs =>
    match getKey rkvs "value" with
    | some (Json.obj vkvs) =>
      (match t with
       | FieldTag.cm => getKeyD vkvs "text" Json.null
       | _ => Json.str (joinVal (getKeyD vkvs "choices" Json.null)))
    | _ => Json.null
  | _ => Json.null

/-- The value written by the last entry of the list that sets the
given field. -/
def lastSetVal (t : FieldTag) (rs : List Json) : Option Json :=
  rs.foldl (fun acc r => if isSetter t r then some (setterVal t r) else acc) none

theorem isSetter_no_value (t : FieldTag) (rkvs : List (String × Json))
    (hv : getKey rkvs "value" = none) :
    isSetter t (Json.obj rkvs) = false := by
  cases t <;> simp [isSetter, hv]

theorem isSetter_ne_name (t : FieldTag) (rkvs : List (String × Json)) (name : String)
    (hfn : getKeyD rkvs "from_name" (Json.str "") = Json.str name)
    (hne : (name == tagName t) = false) :
    isSetter t (Json.obj rkvs) = false := by
  simp only [isSetter, hfn, isStrEq, hne, Bool.false_and]

theorem strList_eq (xs : List Json) (ss : List String) (h : strList xs = .ok ss) :
    ss = xs.map (fun x => match x with | Json.str s => s | _ => "") := by
  induction xs generalizing ss with
  | nil =>
    simp only [strList, Except.ok.injEq] at h
    simp [← h]
  | cons x rest ih =>
    cases x with
    | str s =>
      simp only [strList] at h
      cases hr : strList rest with
      | error e => rw [hr] at h; simp at h
      | ok ss' =>
        rw [hr] at h
        simp only [exc_ok_bind, exc_pure_eq_ok, Except.ok.injEq] at h
        simp [← h, ih ss' hr]
    | null => simp [strList] at h
    | bool b => simp [strList] at h
    | num n => simp [strList] at h
    | arr ys => simp [strList] at h
    | obj kvs => simp [strList] at h

theorem pyJoin_ok_eq (c : Json) (s : String) (h : pyJoin ", " c = .ok s) :
    s = joinVal c := by
  cases c with
  | str t =>
    simp only [pyJoin, Except.ok.injEq] at h
    simp [joinVal, ← h]
  | obj kvs =>
    simp only [pyJoin, Except.ok.injEq] at h
    simp [joinVal, ← h]
  | arr xs =>
    simp only [pyJoin] at h
    cases hr : strList xs with
    | error e => rw [hr] at h; simp at h
    | ok ss =>
      rw [hr] at h
      simp only [exc_ok_bind, exc_pure_eq_ok, Except.ok.injEq] at h
      rw [← h, strList_eq xs ss hr]
      rfl
  | null => simp [pyJoin] at h
  | bool b => simp [pyJoin] at h
  | num n => simp [pyJoin] at h

/-- One result entry changes each recognized field exactly when it is
a setter for that field, and then to the value it writes. -/
theorem procRes_step (fs fs' : Fields) (r : Json)
    (h : procRes fs r = .ok fs') (t : FieldTag) :
    fieldGet t fs' = if isSetter t r then setterVal t r else fieldGet t fs := by
  cases r with
  | null => simp [procRes] at h
  | bool b => simp [procRes] at h
  | num n => simp [procRes] at h
  | str s => simp [procRes] at h
  | arr xs => simp [procRes] at h
  | obj rkvs =>
    simp only [procRes] at h
    cases hq1 : isStrEq (getKeyD rkvs "from_name" (Json.str "")) "image_quality" with
    | true =>
      rw [hq1] at h
      simp only [if_true] at h
      have hfn := isStrEq_true_eq _ _ hq1
      simp only [choicesOf] at h
      rcases hv : getKey rkvs "value" with _ | v
      · rw [hv] at h
        simp only [exc_pure_eq_ok, exc_ok_bind, Except.ok.injEq] at h
        subst h
        rw [isSetter_no_value t rkvs hv]
        simp
      · rw [hv] at h
        cases v with
        | obj vkvs =>
          cases hck : hasKey vkvs "choices" with
          | false =>
            simp only [pyContainsStr, exc_ok_bind, hck, Bool.false_eq_true, if_false,
              exc_pure_eq_ok, Except.ok.injEq] at h
            subst h
            have hset : isSetter t (Json.obj rkvs) = false := by
              cases t with
              | cm => exact isSetter_ne_name FieldTag.cm rkvs "image_quality" hfn rfl
              | iq => simp [isSetter, hv, hck]
              | pq => simp [isSetter, hv, hck]
              | pqr => simp [isSetter, hv, hck]
            rw [hset]
            simp
          | true =>
            rcases hcv : getKey vkvs "choices" with _ | cv
            · rw [show hasKey vkvs "choices" = false by simp [hasKey, hcv]] at hck
              exact Bool.noConfusion hck
            · simp only [pyContainsStr, exc_ok_bind, hck, if_true, pySubscriptStr,
                hcv, exc_ok_bind] at h
              cases hj : pyJoin ", " cv with
              | error e => rw [hj] at h; simp at h
              | ok s =>
                rw [hj] at h
                simp only [exc_ok_bind, exc_pure_eq_ok, Except.ok.injEq] at h
                subst h
                cases t with
                | iq =>
                  have hset : isSetter FieldTag.iq (Json.obj rkvs) = true := by
                    simp [isSetter, hfn, isStrEq, tagName, hv, hck]
                  rw [hset]
                  simp only [if_true, setterVal, hv, fieldGet]
                  rw [pyJoin_ok_eq cv s hj]
                  simp [getKeyD, hcv]
                | pq =>
                  rw [isSetter_ne_name FieldTag.pq rkvs "image_quality" hfn rfl]
                  simp [fieldGet]
                | pqr =>
                  rw [isSetter_ne_name FieldTag.pqr rkvs "image_quality" hfn rfl]
                  simp [fieldGet]
                | cm =>
                  rw [isSetter_ne_name FieldTag.cm rkvs "image_quality" hfn rfl]
                  simp [fieldGet]
        | str sv =>
          cases hcs : strIn "choices" sv with
          | true =>
            simp only [pyContainsStr, exc_ok_bind, hcs, if_true, pySubscriptStr,
              exc_error_bind] at h
            simp at h
          | false =>
            simp only [pyContainsStr, exc_ok_bind, hcs, Bool.false_eq_true, if_false,
              exc_pure_eq_ok, Except.ok.injEq] at h
            subst h
            have hset : isSetter t (Json.obj rkvs) = false := by
              cases t <;> simp [isSetter, hv]
            rw [hset]
            simp
        | arr av =>
          cases hca : av.any (fun x => isStrEq x "choices") with
          | true =>
            simp only [pyContainsStr, exc_ok_bind, hca, if_true, pySubscriptStr,
              exc_error_bind] at h
            simp at h
          | false =>
            simp only [pyContainsStr, exc_ok_bind, hca, Bool.false_eq_true, if_false,
              exc_pure_eq_ok, Except.ok.injEq] at h
            subst h
            have hset : isSetter t (Json.obj rkvs) = false := by
              cases t <;> simp [isSetter, hv]
            rw [hset]
            simp
        | null => simp [pyContainsStr] at h
        | bool b => simp [pyContainsStr] at h
        | num n => simp [pyContainsStr] at h
    | false =>
      rw [hq1] at h
      simp only [Bool.false_eq_true, if_false] at h
      cases hq2 : isStrEq (getKeyD rkvs "from_name" (Json.str "")) "pizza_quality" with
      | true =>
        rw [hq2] at h
        simp only [if_true] at h
        have hfn := isStrEq_true_eq _ _ hq2
        simp only [choicesOf] at h
        rcases hv : getKey rkvs "value" with _ | v
        · rw [hv] at h
          simp only [exc_pure_eq_ok, exc_ok_bind, Except.ok.injEq] at h
          subst h
          rw [isSetter_no_value t rkvs hv]
          simp
        · rw [hv] at h
          cases v with
          | obj vkvs =>
            cases hck : hasKey vkvs "choices" with
            | false =>
              simp only [pyContainsStr, exc_ok_bind, hck, Bool.false_eq_true, if_false,
                exc_pure_eq_ok, Except.ok.injEq] at h
              subst h
              have hset : isSetter t (Json.obj rkvs) = false := by
                cases t with
                | cm => exact isSetter_ne_name FieldTag.cm rkvs "pizza_quality" hfn rfl
                | iq => simp [isSetter, hv, hck]
                | pq => simp [isSetter, hv, hck]
                | pqr => simp [isSetter, hv, hck]
              rw [hset]
              simp
            | true =>
              rcases hcv : getKey vkvs "choices" with _ | cv
              · rw [show hasKey vkvs "choices" = false by simp [hasKey, hcv]] at hck
                exact Bool.noConfusion hck
              · simp only [pyContainsStr, exc_ok_bind, hck, if_true, pySubscriptStr,
                  hcv, exc_ok_bind] at h
                cases hj : pyJoin ", " cv with
                | error e => rw [hj] at h; simp at h
                | ok s =>
                  rw [hj] at h
                  simp only [exc_ok_bind, exc_pure_eq_ok, Except.ok.injEq] at h
                  subst h
                  cases t with
                  | pq =>
                    have hset : isSetter FieldTag.pq (Json.obj rkvs) = true := by
                      simp [isSetter, hfn, isStrEq, tagName, hv, hck]
                    rw [hset]
                    simp only [if_true, setterVal, hv, fieldGet]
                    rw [pyJoin_ok_eq cv s hj]
                    simp [getKeyD, hcv]
                  | iq =>
                    rw [isSetter_ne_name FieldTag.iq rkvs "pizza_quality" hfn rfl]
                    simp [fieldGet]
                  | pqr =>
                    rw [isSetter_ne_name FieldTag.pqr rkvs "pizza_quality" hfn rfl]
                    simp [fieldGet]
                  | cm =>
                    rw [isSetter_ne_name FieldTag.cm rkvs "pizza_quality" hfn rfl]
                    simp [fieldGet]
          | str sv =>
            cases hcs : strIn "choices" sv with
            | true =>
              simp only [pyContainsStr, exc_ok_bind, hcs, if_true, pySubscriptStr,
                exc_error_bind] at h
              simp at h
            | false =>
              simp only [pyContainsStr, exc_ok_bind, hcs, Bool.false_eq_true, if_false,
                exc_pure_eq_ok, Except.ok.injEq] at h
              subst h
              have hset : isSetter t (Json.obj rkvs) = false := by
                cases t <;> simp [isSetter, hv]
              rw [hset]
              simp
          | arr av =>
            cases hca : av.any (fun x => isStrEq x "choices") with
            | true =>
              simp only [pyContainsStr, exc_ok_bind, hca, if_true, pySubscriptStr,
                exc_error_bind] at h
              simp at h
            | false =>
              simp only [pyContainsStr, exc_ok_bind, hca, Bool.false_eq_true, if_false,
                exc_pure_eq_ok, Except.ok.injEq] at h
              subst h
              have hset : isSetter t (Json.obj rkvs) = false := by
                cases t <;> simp [isSetter, hv]
              rw [hset]
              simp
          | null => simp [pyContainsStr] at h
          | bool b => simp [pyContainsStr] at h
          | num n => simp [pyContainsStr] at h
      | false =>
        rw [hq2] at h
        simp only [Bool.false_eq_true, if_false] at h
        cases hq3 : isStrEq (getKeyD rkvs "from_name" (Json.str ""))
            "pizza_quality_reason" with
        | true =>
          rw [hq3] at h
          simp only [if_true] at h
          have hfn := isStrEq_true_eq _ _ hq3
          simp only [choicesOf] at h
          rcases hv : getKey rkvs "value" with _ | v
          · rw [hv] at h
            simp only [exc_pure_eq_ok, exc_ok_bind, Except.ok.injEq] at h
            subst h
            rw [isSetter_no_value t rkvs hv]
            simp
          · rw [hv] at h
            cases v with
            | obj vkvs =>
              cases hck : hasKey vkvs "choices" with
              | false =>
                simp only [pyContainsStr, exc_ok_bind, hck, Bool.false_eq_true,
                  if_false, exc_pure_eq_ok, Except.ok.injEq] at h
                subst h
                have hset : isSetter t (Json.obj rkvs) = false := by
                  cases t with
                  | cm =>
                    exact isSetter_ne_name FieldTag.cm rkvs
                      "pizza_quality_reason" hfn rfl
                  | iq => simp [isSetter, hv, hck]
                  | pq => simp [isSetter, hv, hck]
                  | pqr => simp [isSetter, hv, hck]
                rw [hset]
                simp
              | true =>
                rcases hcv : getKey vkvs "choices" with _ | cv
                · rw [show hasKey vkvs "choices" = false by simp [hasKey, hcv]] at hck
                  exact Bool.noConfusion hck
                · simp only [pyContainsStr, exc_ok_bind, hck, if_true, pySubscriptStr,
                    hcv, exc_ok_bind] at h
                  cases hj : pyJoin ", " cv with
                  | error e => rw [hj] at h; simp at h
                  | ok s =>
                    rw [hj] at h
                    simp only [exc_ok_bind, exc_pure_eq_ok, Except.ok.injEq] at h
                    subst h
                    cases t with
                    | pqr =>
                      have hset : isSetter FieldTag.pqr (Json.obj rkvs) = true := by
                        simp [isSetter, hfn, isStrEq, tagName, hv, hck]
                      rw [hset]
                      simp only [if_true, setterVal, hv, fieldGet]
                      rw [pyJoin_ok_eq cv s hj]
                      simp [getKeyD, hcv]
                    | iq =>
                      rw [isSetter_ne_name FieldTag.iq rkvs
                            "pizza_quality_reason" hfn rfl]
                      simp [fieldGet]
                    | pq =>
                      rw [isSetter_ne_name FieldTag.pq rkvs
                            "pizza_quality_reason" hfn rfl]
                      simp [fieldGet]
                    | cm =>
                      rw [isSetter_ne_name FieldTag.cm rkvs
                            "pizza_quality_reason" hfn rfl]
                      simp [fieldGet]
            | str sv =>
              cases hcs : strIn "choices" sv with
              | true =>
                simp only [pyContainsStr, exc_ok_bind, hcs, if_true, pySubscriptStr,
                  exc_error_bind] at h
                simp at h
              | false =>
                simp only [pyContainsStr, exc_ok_bind, hcs, Bool.false_eq_true,
                  if_false, exc_pure_eq_ok, Except.ok.injEq] at h
                subst h
                have hset : isSetter t (Json.obj rkvs) = false := by
                  cases t <;> simp [isSetter, hv]
                rw [hset]
                simp
            | arr av =>
              cases hca : av.any (fun x => isStrEq x "choices") with
              | true =>
                simp only [pyContainsStr, exc_ok_bind, hca, if_true, pySubscriptStr,
                  exc_error_bind] at h
                simp at h
              | false =>
                simp only [pyContainsStr, exc_ok_bind, hca, Bool.false_eq_true,
                  if_false, exc_pure_eq_ok, Except.ok.injEq] at h
                subst h
                have hset : isSetter t (Json.obj rkvs) = false := by
                  cases t <;> simp [isSetter, hv]
                rw [hset]
                simp
            | null => simp [pyContainsStr] at h
            | bool b => simp [pyContainsStr] at h
            | num n => simp [pyContainsStr] at h
        | false =>
          rw [hq3] at h
          simp only [Bool.false_eq_true, if_false] at h
          cases hq4 : isStrEq (getKeyD rkvs "from_name" (Json.str "")) "comments" with
          | false =>
            rw [hq4] at h
            simp only [Bool.false_eq_true, if_false, exc_pure_eq_ok,
              Except.ok.injEq] at h
            subst h
            have hset : isSetter t (Json.obj rkvs) = false := by
              cases t with
              | iq => simp [isSetter, tagName, hq1]
              | pq => simp [isSetter, tagName, hq2]
              | pqr => simp [isSetter, tagName, hq3]
              | cm => simp [isSetter, tagName, hq4]
            rw [hset]
            simp
          | true =>
            rw [hq4] at h
            simp only [if_true] at h
            have hfn := isStrEq_true_eq _ _ hq4
            rcases hv : getKey rkvs "value" with _ | v
            · rw [hv] at h
              simp only [exc_pure_eq_ok, Except.ok.injEq] at h
              subst h
              rw [isSetter_no_value t rkvs hv]
              simp
            · rw [hv] at h
              cases v with
              | obj vkvs =>
                cases htk : hasKey vkvs "text" with
                | true =>
                  rcases htv : getKey vkvs "text" with _ | tx
                  · rw [show hasKey vkvs "text" = false by simp [hasKey, htv]] at htk
                    exact Bool.noConfusion htk
                  · simp only [pyContainsStr, exc_ok_bind, htk, if_true,
                      pySubscriptStr, htv, exc_ok_bind, exc_pure_eq_ok,
                      Except.ok.injEq] at h
                    subst h
                    cases t with
                    | cm =>
                      have hset : isSetter FieldTag.cm (Json.obj rkvs) = true := by
                        simp [isSetter, hfn, isStrEq, tagName, hv, htk]
                      rw [hset]
                      simp [setterVal, hv, getKeyD, htv, fieldGet]
                    | iq =>
                      rw [isSetter_ne_name FieldTag.iq rkvs "comments" hfn rfl]
                      simp [fieldGet]
                    | pq =>
                      rw [isSetter_ne_name FieldTag.pq rkvs "comments" hfn rfl]
                      simp [fieldGet]
                    | pqr =>
                      rw [isSetter_ne_name FieldTag.pqr rkvs "comments" hfn rfl]
                      simp [fieldGet]
                | false =>
                  simp only [pyContainsStr, exc_ok_bind, htk, Bool.false_eq_true,
                    if_false, exc_pure_eq_ok, Except.ok.injEq] at h
                  subst h
                  have hset : isSetter t (Json.obj rkvs) = false := by
                    cases t with
                    | cm => simp [isSetter, hv, htk]
                    | iq => exact isSetter_ne_name FieldTag.iq rkvs "comments" hfn rfl
                    | pq => exact isSetter_ne_name FieldTag.pq rkvs "comments" hfn rfl
                    | pqr => exact isSetter_ne_name FieldTag.pqr rkvs "comments" hfn rfl
                  rw [hset]
                  simp
              | str sv =>
                cases hcs : strIn "text" sv with
                | true =>
                  simp only [pyContainsStr, exc_ok_bind, hcs, if_true, pySubscriptStr,
                    exc_error_bind] at h
                  simp at h
                | false =>
                  simp only [pyContainsStr, exc_ok_bind, hcs, Bool.false_eq_true,
                    if_false, exc_pure_eq_ok, Except.ok.injEq] at h
                  subst h
                  have hset : isSetter t (Json.obj rkvs) = false := by
                    cases t <;> simp [isSetter, hv]
                  rw [hset]
                  simp
              | arr av =>
                cases hca : av.any (fun x => isStrEq x "text") with
                | true =>
                  simp only [pyContainsStr, exc_ok_bind, hca, if_true, pySubscriptStr,
                    exc_error_bind] at h
                  simp at h
                | false =>
                  simp only [pyContainsStr, exc_ok_bind, hca, Bool.false_eq_true,
                    if_false, exc_pure_eq_ok, Except.ok.injEq] at h
                  subst h
                  have hset : isSetter t (Json.obj rkvs) = false := by
                    cases t <;> simp [isSetter, hv]
                  rw [hset]
                  simp
              | null => simp [pyContainsStr] at h
              | bool b => simp [pyContainsStr] at h
              | num n => simp [pyContainsStr] at h

theorem foldl_set_step (t : FieldTag) (rs : List Json) (acc : Option Json) :
    rs.foldl (fun acc r => if isSetter t r then some (setterVal t r) else acc) acc
      = match lastSetVal t rs with
        | some x => some x
        | none => acc := by
  induction rs generalizing acc with
  | nil => rfl
  | cons r rest ih =>
    show rest.foldl _ (if isSetter t r then some (setterVal t r) else acc) = _
    rw [ih]
    have hl : lastSetVal t (r :: rest)
        = match lastSetVal t rest with
          | some x => some x
          | none => (if isSetter t r then some (setterVal t r) else none) := by
      show rest.foldl _ (if isSetter t r then some (setterVal t r) else none) = _
      rw [ih]
    rw [hl]
    cases lastSetVal t rest with
    | some x => rfl
    | none => cases isSetter t r <;> rfl

/-- Sequential overwrite over one result list: after a successful
pass, each recognized field holds the value written by the last entry
setting it (or its incoming value). -/
theorem runResults_field (t : FieldTag) (fs fs' : Fields) (rs : List Json)
    (h : runResults fs rs = .ok fs') :
    fieldGet t fs' = (lastSetVal t rs).getD (fieldGet t fs) := by
  induction rs generalizing fs with
  | nil =>
    simp only [runResults, Except.ok.injEq] at h
    subst h
    rfl
  | cons r rest ih =>
    simp only [runResults] at h
    cases h1 : procRes fs r with
    | error e => rw [h1] at h; simp at h
    | ok fs1 =>
      rw [h1] at h
      simp only [exc_ok_bind] at h
      have hc1 := procRes_step fs fs1 r h1 t
      have hc2 := ih fs1 h
      have hl : lastSetVal t (r :: rest)
          = match lastSetVal t rest with
            | some x => some x
            | none => (if isSetter t r then some (setterVal t r) else none) := by
        show rest.foldl _ (if isSetter t r then some (setterVal t r) else none) = _
        rw [foldl_set_step]
      rw [hc2, hl]
      cases hrest : lastSetVal t rest with
      | some x => rfl
      | none =>
        cases hs : isSetter t r with
        | true =>
          rw [hs] at hc1
          simp only [if_true] at hc1
          simp [hc1]
        | false =>
          rw [hs] at hc1
          simp only [Bool.false_eq_true, if_false] at hc1
          simp [hc1]

/-- The result entries one annotation contributes when it is
processed without raising. -/
def annResults (a : Json) : List Json :=
  match a with
  | Json.obj akvs =>
    match getKey akvs "result" with
    | some (Json.arr rs) => rs
    | _ => []
  | _ => []

/-- Sequential overwrite over one annotation. -/
theorem procAnn_field (t : FieldTag) (fs fs' : Fields) (a : Json)
    (h : procAnn fs a = .ok fs') :
    fieldGet t fs' = (lastSetVal t (annResults a)).getD (fieldGet t fs) := by
  cases a with
  | obj akvs =>
    rcases hr : getKey akvs "result" with _ | rv
    · have hno : procAnn fs (Json.obj akvs) = .ok fs := by
        simp [procAnn, pyContainsStr, hasKey, hr]
      rw [hno] at h
      simp only [Except.ok.injEq] at h
      subst h
      simp [annResults, hr, lastSetVal]
    · simp only [procAnn, pyContainsStr, hasKey, hr, Option.isSome_some, if_true,
        exc_ok_bind, pySubscriptStr] at h
      cases rv with
      | arr rs =>
        simp only [pyElems, exc_ok_bind] at h
        have := runResults_field t fs fs' rs h
        simpa [annResults, hr] using this
      | obj okvs =>
        simp only [pyElems, exc_ok_bind] at h
        cases okvs with
        | nil =>
          simp only [List.map_nil, runResults, Except.ok.injEq] at h
          subst h
          simp [annResults, hr, lastSetVal]
        | cons kv rest =>
          simp only [List.map_cons, runResults, procRes, exc_error_bind] at h
          simp at h
      | str sv =>
        simp only [pyElems, exc_ok_bind] at h
        cases hsd : sv.data with
        | nil =>
          rw [hsd] at h
          simp only [List.map_nil, runResults, Except.ok.injEq] at h
          subst h
          simp [annResults, hr, lastSetVal]
        | cons c cs =>
          rw [hsd] at h
          simp only [List.map_cons, runResults, procRes, exc_error_bind] at h
          simp at h
      | null => simp [pyElems] at h
      | bool b => simp [pyElems] at h
      | num n => simp [pyElems] at h
  | str sv =>
    simp only [procAnn, pyContainsStr, exc_ok_bind] at h
    cases hcs : strIn "result" sv with
    | true =>
      rw [hcs] at h
      simp only [if_true, pySubscriptStr, exc_error_bind] at h
      simp at h
    | false =>
      rw [hcs] at h
      simp only [Bool.false_eq_true, if_false, exc_pure_eq_ok, Except.ok.injEq] at h
      subst h
      simp [annResults, lastSetVal]
  | arr xs =>
    simp only [procAnn, pyContainsStr, exc_ok_bind] at h
    cases hca : xs.any (fun x => isStrEq x "result") with
    | true =>
      rw [hca] at h
      simp only [if_true, pySubscriptStr, exc_error_bind] at h
      simp at h
    | false =>
      rw [hca] at h
      simp only [Bool.false_eq_true, if_false, exc_pure_eq_ok, Except.ok.injEq] at h
      subst h
      simp [annResults, lastSetVal]
  | null => simp [procAnn, pyContainsStr] at h
  | bool b => simp [procAnn, pyContainsStr] at h
  | num n => simp [procAnn, pyContainsStr] at h

/-- The record's full entry sequence: each annotation's result
entries, in annotation order. -/
def recordEntries : List Json → List Json
  | [] => []
  | a :: rest => annResults a ++ recordEntries rest

theorem lastSetVal_append (t : FieldTag) (l1 l2 : List Json) :
    lastSetVal t (l1 ++ l2)
      = match lastSetVal t l2 with
        | some x => some x
        | none => lastSetVal t l1 := by
  show (l1 ++ l2).foldl _ none = _
  rw [List.foldl_append, foldl_set_step]
  rfl

/-- Sequential overwrite across a record's annotations list. -/
theorem runAnns_field (t : FieldTag) (anns : List Json) :
    ∀ (fs fs' : Fields), runAnns fs anns = .ok fs' →
      fieldGet t fs' = (lastSetVal t (recordEntries anns)).getD (fieldGet t fs) := by
  induction anns with
  | nil =>
    intro fs fs' h
    simp only [runAnns, Except.ok.injEq] at h
    subst h
    rfl
  | cons a rest ih =>
    intro fs fs' h
    simp only [runAnns] at h
    cases h1 : procAnn fs a with
    | error e => rw [h1] at h; simp at h
    | ok fs1 =>
      rw [h1] at h
      simp only [exc_ok_bind] at h
      have hc1 := procAnn_field t fs fs1 a h1
      have hc2 := ih fs1 fs' h
      show fieldGet t fs' = (lastSetVal t (annResults a ++ recordEntries rest)).getD _
      rw [lastSetVal_append, hc2]
      cases hrest : lastSetVal t (recordEntries rest) with
      | some x => rfl
      | none => simpa using hc1

/-- The annotations the record walks, when `annotations` is truthy
and iterable (dict keys and string characters contribute their
elements; they set nothing or raise). -/
def annListOf (a : Json) : List Json :=
  if pyTruthy a then
    match a with
    | Json.arr aas => aas
    | Json.obj akvs => akvs.map (fun kv => Json.str kv.fst)
    | Json.str s => s.data.map (fun c => Json.str (String.singleton c))
    | _ => []
  else []

/-- Sequential overwrite for a record's whole `annotations` value,
starting from the sentinel defaults. -/
theorem procAnns_field (t : FieldTag) (a : Json) (fs : Fields)
    (h : procAnns a = .ok fs) :
    fieldGet t fs = (lastSetVal t (recordEntries (annListOf a))).getD
      (fieldGet t initFields) := by
  unfold procAnns at h
  by_cases ht : pyTruthy a = true
  · rw [if_pos ht] at h
    cases a with
    | arr aas =>
      simp only [pyElems, exc_ok_bind] at h
      have := runAnns_field t aas initFields fs h
      simpa [annListOf, ht] using this
    | obj kvs =>
      simp only [pyElems, exc_ok_bind] at h
      have := runAnns_field t (kvs.map (fun kv => Json.str kv.fst)) initFields fs h
      simpa [annListOf, ht] using this
    | str sv =>
      simp only [pyElems, exc_ok_bind] at h
      have := runAnns_field t (sv.data.map (fun c => Json.str (String.singleton c)))
        initFields fs h
      simpa [annListOf, ht] using this
    | null => simp [pyTruthy] at ht
    | bool b => simp [pyElems] at h
    | num n => simp [pyElems] at h
  · have ht' : pyTruthy a = false := by simpa using ht
    rw [ht'] at h
    simp only [Bool.false_eq_true, if_false, exc_pure_eq_ok, Except.ok.injEq] at h
    subst h
    simp [annListOf, ht', recordEntries, lastSetVal]

/-- A record with one annotation carrying the given result list. -/
def mkPizzaRecord (v : Json) (rs : List Json) : Json :=
  Json.obj [("data", Json.obj [("image", v)]),
            ("annotations", Json.arr [Json.obj [("result", Json.arr rs)]])]

/-- A well-formed comments result entry with the given text. -/
def mkComment (t : Json) : Json :=
  Json.obj [("from_name", Json.str "comments"), ("value", Json.obj [("text", t)])]

/-- A well-formed categorical result entry with the given choices. -/
def mkChoice (tag : String) (cs : List Json) : Json :=
  Json.obj [("from_name", Json.str tag), ("value", Json.obj [("choices", Json.arr cs)])]

/-- Claim C7: within one record the extractor walks the annotations
and their result entries in order and overwrites the output field of
each recognized `from_name` sequentially: every one of the four
recognized fields of the FlatRecord equals the value written by the
LAST entry setting that field across the record's annotations (the
sentinel "N/A" when none sets it); in particular two ResultItems with
from_name "comments" and texts "first" then "second" yield comments
"second". -/
theorem c7_last_wins (kvs : List (String × Json)) (a : Json) (fr : FlatRecord)
    (ha : getKey kvs "annotations" = some a)
    (h : processItem (Json.obj kvs) = .ok (some fr)) (t : FieldTag) :
    flatField t fr = (lastSetVal t (recordEntries (annListOf a))).getD
      (Json.str "N/A") := by
  rcases hd : getKey kvs "data" with _ | dv
  · simp only [processItem, hd] at h
    simp at h
  · simp only [processItem, hd, ha] at h
    cases hc : pyContainsStr "image" dv with
    | error e => rw [hc] at h; simp at h
    | ok b =>
      rw [hc] at h
      simp only [exc_ok_bind] at h
      cases b with
      | false =>
        simp only [Bool.false_eq_true, if_false, exc_pure_eq_ok, exc_ok_bind] at h
        cases hpa : procAnns a with
        | error e => rw [hpa] at h; simp at h
        | ok fs =>
          rw [hpa] at h
          simp at h
      | true =>
        simp only [if_true] at h
        cases hsub : pySubscriptStr dv "image" with
        | error e => rw [hsub] at h; simp at h
        | ok v =>
          rw [hsub] at h
          simp only [exc_ok_bind, exc_pure_eq_ok] at h
          cases hpa : procAnns a with
          | error e => rw [hpa] at h; simp at h
          | ok fs =>
            rw [hpa] at h
            simp only [exc_ok_bind, exc_pure_eq_ok, Except.ok.injEq,
              Option.some.injEq] at h
            subst h
            have hfield : flatField t
                { image := imgBase ++ pyStr v, image_filename := v,
                  image_quality := fs.image_quality,
                  pizza_quality := fs.pizza_quality,
                  pizza_quality_reason := fs.pizza_quality_reason,
                  comments := fs.comments } = fieldGet t fs := by
              cases t <;> rfl
            rw [hfield, procAnns_field t a fs hpa]
            cases t <;> rfl

/-- The concrete sample record for C7's witness: two annotations,
each overwriting comments and pizza_quality. -/
def annsC7 : Json :=
  Json.arr
    [Json.obj [("result", Json.arr
       [mkComment (Json.str "first"),
        mkChoice "pizza_quality" [Json.str "Bad"]])],
     Json.obj [("result", Json.arr
       [mkComment (Json.str "second"),
        mkChoice "pizza_quality" [Json.str "Good"]])]]

def recC7kvs : List (String × Json) :=
  [("data", Json.obj [("image", Json.str "p.jpg")]),
   ("annotations", annsC7)]

def frC7 : FlatRecord :=
  { image := imgBase ++ "p.jpg", image_filename := Json.str "p.jpg",
    image_quality := "N/A", pizza_quality := "Good",
    pizza_quality_reason := "N/A", comments := Json.str "second" }

/-- Witness for C7: across two annotations, the later "second"
comments text and "Good" pizza_quality choice win. -/
theorem c7_witness :
    processItem (Json.obj recC7kvs) = .ok (some frC7)
    ∧ flatField FieldTag.cm frC7 = Json.str "second"
    ∧ flatField FieldTag.pq frC7 = Json.str "Good" := by
  refine ⟨rfl, ?_, ?_⟩
  · exact (c7_last_wins recC7kvs annsC7 frC7 rfl rfl FieldTag.cm).trans (by rfl)
  · exact (c7_last_wins recC7kvs annsC7 frC7 rfl rfl FieldTag.pq).trans (by rfl)

/-- Claim C10 counterexample: a record whose `annotations` value is
the number `7` makes the extractor raise a `TypeError` (Python
iterates a non-iterable) — the extractor is not total on arbitrary
JSON-shaped input. -/
theorem c10_counterexample :
    extract_annotation_data [Json.obj [("data", Json.obj [("image", Json.str "a.jpg")]),
        ("annotations", Json.num 7)]] = .error PyErr.typeError := rfl

/-- Well-formed `choices` value: a list of strings. -/
def wfChoicesVal : Json → Bool
  | Json.arr cs => cs.all (fun c => match c with | Json.str _ => true | _ => false)
  | _ => false

/-- Well-formed `value` member: a mapping whose `choices` entry, if
present, is a list of strings. -/
def wfValueObj : Json → Bool
  | Json.obj vkvs =>
    (match getKey vkvs "choices" with
     | some c => wfChoicesVal c
     | none => true)
  | _ => false

/-- Well-formed result entry: a mapping whose `value`, if present, is
well formed. -/
def wfResItem : Json → Bool
  | Json.obj rkvs =>
    (match getKey rkvs "value" with
     | some v => wfValueObj v
     | none => true)
  | _ => false

/-- Well-formed annotation: a mapping whose `result`, if present, is
a list of well-formed result entries. -/
def wfAnnItem : Json → Bool
  | Json.obj akvs =>
    (match getKey akvs "result" with
     | some (Json.arr rs) => rs.all wfResItem
     | some _ => false
     | none => true)
  | _ => false

/-- Well-formed `annotations` value: a list of well-formed
annotations, or any falsy value (skipped by the truthiness guard). -/
def wfAnnsVal : Json → Bool
  | Json.arr aas => aas.all wfAnnItem
  | a => !pyTruthy a

/-- Well-formed record: if both required keys are present, `data` is
a mapping and `annotations` is well formed. -/
def wfItem : Json → Bool
  | Json.obj kvs =>
    (match getKey kvs "data", getKey kvs "annotations" with
     | some dv, some av =>
       (match dv with | Json.obj _ => true | _ => false) && wfAnnsVal av
     | _, _ => true)
  | _ => true

/-- The four `from_name` tags the extractor recognizes. -/
def recognizedTag (j : Json) : Bool :=
  isStrEq j "image_quality" || isStrEq j "pizza_quality" ||
    isStrEq j "pizza_quality_reason" || isStrEq j "comments"

theorem strList_ok (cs : List Json)
    (h : cs.all (fun c => match c with | Json.str _ => true | _ => false) = true) :
    ∃ ss : List String, strList cs = Except.ok ss := by
  induction cs with
  | nil => exact ⟨[], rfl⟩
  | cons c rest ih =>
    simp only [List.all_cons, Bool.and_eq_true] at h
    obtain ⟨ss, hss⟩ := ih h.2
    cases c with
    | str s => exact ⟨s :: ss, by simp [strList, hss]⟩
    | null => simp at h
    | bool b => simp at h
    | num n => simp at h
    | arr xs => simp at h
    | obj kvs => simp at h

theorem pyJoin_wf (c : Json) (h : wfChoicesVal c = true) :
    ∃ s, pyJoin ", " c = .ok s := by
  cases c with
  | arr cs =>
    obtain ⟨ss, hss⟩ := strList_ok cs (by simpa [wfChoicesVal] using h)
    exact ⟨String.intercalate ", " ss, by simp [pyJoin, hss]⟩
  | null => simp [wfChoicesVal] at h
  | bool b => simp [wfChoicesVal] at h
  | num n => simp [wfChoicesVal] at h
  | str s => simp [wfChoicesVal] at h
  | obj kvs => simp [wfChoicesVal] at h

theorem choicesOf_wf (rkvs : List (String × Json))
    (h : (match getKey rkvs "value" with
          | some v => wfValueObj v
          | none => true) = true) :
    ∃ c, choicesOf rkvs = .ok c := by
  rcases hv : getKey rkvs "value" with _ | v
  · exact ⟨none, by simp [choicesOf, hv]⟩
  · rw [hv] at h
    cases v with
    | obj vkvs =>
      rcases hc : getKey vkvs "choices" with _ | c
      · exact ⟨none, by simp [choicesOf, hv, pyContainsStr, hasKey, hc]⟩
      · simp only [wfValueObj, hc] at h
        obtain ⟨s, hs⟩ := pyJoin_wf c h
        exact ⟨some s, by simp [choicesOf, hv, pyContainsStr, hasKey, hc,
          pySubscriptStr, hs]⟩
    | null => simp [wfValueObj] at h
    | bool b => simp [wfValueObj] at h
    | num n => simp [wfValueObj] at h
    | str s => simp [wfValueObj] at h
    | arr xs => simp [wfValueObj] at h

theorem procRes_wf (fs : Fields) (r : Json) (h : wfResItem r = true) :
    ∃ fs', procRes fs r = .ok fs' := by
  cases r with
  | obj rkvs =>
    have hval : (match getKey rkvs "value" with
        | some v => wfValueObj v | none => true) = true := by
      simpa [wfResItem] using h
    simp only [procRes]
    by_cases h1 : isStrEq (getKeyD rkvs "from_name" (Json.str "")) "image_quality" = true
    · obtain ⟨c, hc⟩ := choicesOf_wf rkvs hval
      rw [if_pos h1, hc]
      exact ⟨_, rfl⟩
    · rw [if_neg h1]
      by_cases h2 : isStrEq (getKeyD rkvs "from_name" (Json.str "")) "pizza_quality" = true
      · obtain ⟨c, hc⟩ := choicesOf_wf rkvs hval
        rw [if_pos h2, hc]
        exact ⟨_, rfl⟩
      · rw [if_neg h2]
        by_cases h3 : isStrEq (getKeyD rkvs "from_name" (Json.str ""))
            "pizza_quality_reason" = true
        · obtain ⟨c, hc⟩ := choicesOf_wf rkvs hval
          rw [if_pos h3, hc]
          exact ⟨_, rfl⟩
        · rw [if_neg h3]
          by_cases h4 : isStrEq (getKeyD rkvs "from_name" (Json.str "")) "comments" = true
          · rw [if_pos h4]
            rcases hv : getKey rkvs "value" with _ | v
            · exact ⟨fs, rfl⟩
            · rw [hv] at hval
              cases v with
              | obj vkvs =>
                cases htk : hasKey vkvs "text" with
                | true =>
                  rcases htv : getKey vkvs "text" with _ | t
                  · rw [show hasKey vkvs "text" = false by simp [hasKey, htv]] at htk
                    exact Bool.noConfusion htk
                  · refine ⟨{ fs with comments := t }, ?_⟩
                    simp [pyContainsStr, htk, pySubscriptStr, htv]
                | false => exact ⟨fs, by simp [pyContainsStr, htk]⟩
              | null => simp [wfValueObj] at hval
              | bool b => simp [wfValueObj] at hval
              | num n => simp [wfValueObj] at hval
              | str s => simp [wfValueObj] at hval
              | arr xs => simp [wfValueObj] at hval
          · rw [if_neg h4]
            exact ⟨fs, rfl⟩
  | null => simp [wfResItem] at h
  | bool b => simp [wfResItem] at h
  | num n => simp [wfResItem] at h
  | str s => simp [wfResItem] at h
  | arr xs => simp [wfResItem] at h

theorem runResults_wf (rs : List Json) (h : rs.all wfResItem = true) :
    ∀ fs, ∃ fs', runResults fs rs = .ok fs' := by
  induction rs with
  | nil => intro fs; exact ⟨fs, rfl⟩
  | cons r rest ih =>
    intro fs
    simp only [List.all_cons, Bool.and_eq_true] at h
    obtain ⟨fs1, h1⟩ := procRes_wf fs r h.1
    obtain ⟨fs', h2⟩ := ih h.2 fs1
    exact ⟨fs', by simp [runResults, h1, h2]⟩

theorem procAnn_wf (fs : Fields) (a : Json) (h : wfAnnItem a = true) :
    ∃ fs', procAnn fs a = .ok fs' := by
  cases a with
  | obj akvs =>
    rcases hr : getKey akvs "result" with _ | rv
    · exact ⟨fs, by simp [procAnn, pyContainsStr, hasKey, hr]⟩
    · cases rv with
      | arr rs =>
        have hall : rs.all wfResItem = true := by simpa [wfAnnItem, hr] using h
        obtain ⟨fs', h2⟩ := runResults_wf rs hall fs
        exact ⟨fs', by simp [procAnn, pyContainsStr, hasKey, hr, pySubscriptStr,
          pyElems, h2]⟩
      | null => simp [wfAnnItem, hr] at h
      | bool b => simp [wfAnnItem, hr] at h
      | num n => simp [wfAnnItem, hr] at h
      | str s => simp [wfAnnItem, hr] at h
      | obj okvs => simp [wfAnnItem, hr] at h
  | null => simp [wfAnnItem] at h
  | bool b => simp [wfAnnItem] at h
  | num n => simp [wfAnnItem] at h
  | str s => simp [wfAnnItem] at h
  | arr xs => simp [wfAnnItem] at h

theorem runAnns_wf (aas : List Json) (h : aas.all wfAnnItem = true) :
    ∀ fs, ∃ fs', runAnns fs aas = .ok fs' := by
  induction aas with
  | nil => intro fs; exact ⟨fs, rfl⟩
  | cons a rest ih =>
    intro fs
    simp only [List.all_cons, Bool.and_eq_true] at h
    obtain ⟨fs1, h1⟩ := procAnn_wf fs a h.1
    obtain ⟨fs', h2⟩ := ih h.2 fs1
    exact ⟨fs', by simp [runAnns, h1, h2]⟩

theorem procAnns_wf (av : Json) (h : wfAnnsVal av = true) :
    ∃ fs, procAnns av = .ok fs := by
  by_cases ht : pyTruthy av = true
  · cases av with
    | arr aas =>
      have hall : aas.all wfAnnItem = true := by simpa [wfAnnsVal] using h
      obtain ⟨fs, h2⟩ := runAnns_wf aas hall initFields
      exact ⟨fs, by simp [procAnns, ht, pyElems, h2]⟩
    | null => simp [pyTruthy] at ht
    | bool b =>
      simp only [wfAnnsVal] at h
      rw [ht] at h
      simp at h
    | num n =>
      simp only [wfAnnsVal] at h
      rw [ht] at h
      simp at h
    | str s =>
      simp only [wfAnnsVal] at h
      rw [ht] at h
      simp at h
    | obj kvs =>
      simp only [wfAnnsVal] at h
      rw [ht] at h
      simp at h
  · have ht' : pyTruthy av = false := by simpa using ht
    exact ⟨initFields, by simp [procAnns, ht']⟩

theorem processItem_wf (item : Json) (h : wfItem item = true) :
    ∃ r, processItem item = .ok r := by
  cases item with
  | obj kvs =>
    rcases hd : getKey kvs "data" with _ | dv
    · exact ⟨none, by simp [processItem, hd]⟩
    · rcases ha : getKey kvs "annotations" with _ | av
      · exact ⟨none, by simp [processItem, hd, ha]⟩
      · have h' : ((match dv with | Json.obj _ => true | _ => false)
            && wfAnnsVal av) = true := by
          have hu : wfItem (Json.obj kvs)
              = ((match dv with | Json.obj _ => true | _ => false)
                  && wfAnnsVal av) := by
            simp only [wfItem, hd, ha]
            cases dv <;> rfl
          rw [← hu]
          exact h
        rw [Bool.and_eq_true] at h'
        obtain ⟨hdv, hav⟩ := h'
        cases dv with
        | obj dkvs =>
          obtain ⟨fs, hfs⟩ := procAnns_wf av hav
          cases hik : hasKey dkvs "image" with
          | false =>
            exact ⟨none, by simp [processItem, hd, ha, pyContainsStr, hik, hfs]⟩
          | true =>
            rcases hv : getKey dkvs "image" with _ | v
            · rw [show hasKey dkvs "image" = false by simp [hasKey, hv]] at hik
              exact Bool.noConfusion hik
            · refine ⟨some
                { image := imgBase ++ pyStr v, image_filename := v,
                  image_quality := fs.image_quality,
                  pizza_quality := fs.pizza_quality,
                  pizza_quality_reason := fs.pizza_quality_reason,
                  comments := fs.comments }, ?_⟩
              simp [processItem, hd, ha, pyContainsStr, hik, pySubscriptStr,
                hv, hfs]
        | null => simp at hdv
        | bool b => simp at hdv
        | num n => simp at hdv
        | str s => simp at hdv
        | arr xs => simp at hdv
  | null => exact ⟨none, rfl⟩
  | bool b => exact ⟨none, rfl⟩
  | num n => exact ⟨none, rfl⟩
  | str s => exact ⟨none, rfl⟩
  | arr xs => exact ⟨none, rfl⟩

theorem extract_wf (items : List Json) (h : items.all wfItem = true) :
    ∃ out, extract_annotation_data items = .ok out := by
  induction items with
  | nil => exact ⟨[], rfl⟩
  | cons item rest ih =>
    simp only [List.all_cons, Bool.and_eq_true] at h
    obtain ⟨r, h1⟩ := processItem_wf item h.1
    obtain ⟨out, h2⟩ := ih h.2
    exact ⟨r.toList ++ out, by simp [extract_annotation_data, h1, h2]⟩

/-- An annotation without a `result` key contributes nothing. -/
theorem procAnn_no_result (fs : Fields) (akvs : List (String × Json))
    (h : getKey akvs "result" = none) :
    procAnn fs (Json.obj akvs) = .ok fs := by
  simp [procAnn, pyContainsStr, hasKey, h]

/-- A result entry without a `value` key changes nothing. -/
theorem procRes_no_value (fs : Fields) (rkvs : List (String × Json))
    (hv : getKey rkvs "value" = none) :
    procRes fs (Json.obj rkvs) = .ok fs := by
  simp only [procRes]
  by_cases h1 : isStrEq (getKeyD rkvs "from_name" (Json.str "")) "image_quality" = true
  · rw [if_pos h1]
    simp [choicesOf, hv]
  · rw [if_neg h1]
    by_cases h2 : isStrEq (getKeyD rkvs "from_name" (Json.str "")) "pizza_quality" = true
    · rw [if_pos h2]
      simp [choicesOf, hv]
    · rw [if_neg h2]
      by_cases h3 : isStrEq (getKeyD rkvs "from_name" (Json.str ""))
          "pizza_quality_reason" = true
      · rw [if_pos h3]
        simp [choicesOf, hv]
      · rw [if_neg h3]
        by_cases h4 : isStrEq (getKeyD rkvs "from_name" (Json.str "")) "comments" = true
        · rw [if_pos h4, hv]
          rfl
        · rw [if_neg h4]
          rfl

/-- A result entry whose mapping `value` has neither `choices` nor
`text` changes nothing. -/
theorem procRes_no_choices_text (fs : Fields) (rkvs vkvs : List (String × Json))
    (hv : getKey rkvs "value" = some (Json.obj vkvs))
    (hc : getKey vkvs "choices" = none) (htx : getKey vkvs "text" = none) :
    procRes fs (Json.obj rkvs) = .ok fs := by
  simp only [procRes]
  by_cases h1 : isStrEq (getKeyD rkvs "from_name" (Json.str "")) "image_quality" = true
  · rw [if_pos h1]
    simp [choicesOf, hv, pyContainsStr, hasKey, hc]
  · rw [if_neg h1]
    by_cases h2 : isStrEq (getKeyD rkvs "from_name" (Json.str "")) "pizza_quality" = true
    · rw [if_pos h2]
      simp [choicesOf, hv, pyContainsStr, hasKey, hc]
    · rw [if_neg h2]
      by_cases h3 : isStrEq (getKeyD rkvs "from_name" (Json.str ""))
          "pizza_quality_reason" = true
      · rw [if_pos h3]
        simp [choicesOf, hv, pyContainsStr, hasKey, hc]
      · rw [if_neg h3]
        by_cases h4 : isStrEq (getKeyD rkvs "from_name" (Json.str "")) "comments" = true
        · rw [if_pos h4, hv]
          simp [pyContainsStr, hasKey, htx]
        · rw [if_neg h4]
          rfl

/-- Claim C10 (amended): the Annotation Extractor never raises on
inputs whose nested structure is well formed (data values are
mappings; annotations values are lists of mappings — or falsy — whose
`result` values are lists of mappings, with `choices` lists of
strings when present); and the silent-ignore rules hold: an
annotation without `result` contributes nothing, and a recognized
ResultItem lacking `value`, or whose mapping value lacks both
`choices` and `text`, leaves the fields unchanged. -/
theorem c10_total_on_wellformed (items : List Json) (hwf : items.all wfItem = true) :
    (∃ out, extract_annotation_data items = .ok out)
    ∧ (∀ fs akvs, getKey akvs "result" = none →
        procAnn fs (Json.obj akvs) = .ok fs)
    ∧ (∀ fs rkvs, recognizedTag (getKeyD rkvs "from_name" (Json.str "")) = true →
        (getKey rkvs "value" = none → procRes fs (Json.obj rkvs) = .ok fs)
        ∧ (∀ vkvs, getKey rkvs "value" = some (Json.obj vkvs) →
            getKey vkvs "choices" = none → getKey vkvs "text" = none →
            procRes fs (Json.obj rkvs) = .ok fs)) :=
  ⟨extract_wf items hwf,
   fun fs akvs h => procAnn_no_result fs akvs h,
   fun fs rkvs _ =>
     ⟨fun hv => procRes_no_value fs rkvs hv,
      fun vkvs hv hc htx => procRes_no_choices_text fs rkvs vkvs hv hc htx⟩⟩

/-- Witness for C10's amended statement. -/
theorem c10_witness :
    (∃ out, extract_annotation_data [mkPizzaRecord (Json.str "a.jpg") []] = .ok out)
    ∧ procAnn initFields (Json.obj [("x", Json.null)]) = .ok initFields
    ∧ procRes initFields (Json.obj [("from_name", Json.str "comments")]) = .ok initFields
    ∧ procRes initFields (Json.obj [("from_name", Json.str "image_quality"),
        ("value", Json.obj [])]) = .ok initFields := by
  have h := c10_total_on_wellformed [mkPizzaRecord (Json.str "a.jpg") []] (by decide)
  exact ⟨h.1, h.2.1 initFields [("x", Json.null)] rfl,
    (h.2.2 initFields [("from_name", Json.str "comments")] (by decide)).1 rfl,
    (h.2.2 initFields [("from_name", Json.str "image_quality"), ("value", Json.obj [])]
      (by decide)).2 [] rfl rfl rfl⟩
